import Mathlib

/-!
Verification of the pack/unpack adapter and lifted transforms of
flax/core/lift.py against its specification.  Variable collections,
collection filters and the scope tree are shallowly embedded; the
routines of lift.py are transcribed over that embedding.
-/

namespace Flax

/-- Modelled from the spec: a variable collection is a named mapping from
variable name to value, with two representations, a fully mutable plain
mapping and an immutable snapshot (a FrozenDict, from frozen_dict.py which
is not part of the sources).  Values are modelled as natural numbers. -/
inductive Col where
  | mutCol (entries : List (String × Nat))
  | frozenCol (entries : List (String × Nat))
deriving DecidableEq

/-- Whether a collection is an immutable snapshot. -/
def Col.isFrozenDict : Col → Bool
  | .mutCol _ => false
  | .frozenCol _ => true

/-- The underlying entries of a collection. -/
def Col.entries : Col → List (String × Nat)
  | .mutCol e => e
  | .frozenCol e => e

/-- Modelled from the spec: freeze yields the immutable snapshot of a
collection (frozen_dict.py is not part of the sources). -/
def freeze : Col → Col
  | .mutCol e => .frozenCol e
  | .frozenCol e => .frozenCol e

/-- The variable collections of one scope: an ordered association of
collection name to collection, mirroring an ordered Python dict. -/
abbrev Vars := List (String × Col)

/-- Modelled from the spec: a collection or RNG filter is a predicate over
names, either a boolean literal, an explicit set of names, or the negation
of such a set (scope.py is not part of the sources). -/
inductive CFilter where
  | matchAll
  | matchNone
  | matchNames (names : List String)
  | matchExcept (names : List String)
deriving DecidableEq

/-- Modelled from the spec: filter evaluation on one name
(in_filter of scope.py, which is not part of the sources). -/
def in_filter : CFilter → String → Bool
  | .matchAll, _ => true
  | .matchNone, _ => false
  | .matchNames ns, n => ns.contains n
  | .matchExcept ns, n => !(ns.contains n)

/-- Whether any filter of the list matches the name. -/
def matchesAny (filters : List CFilter) (n : String) : Bool :=
  filters.any (fun f => in_filter f n)

/-- Modelled from the spec: group_collections (scope.py, not part of the
sources) partitions the collections of a scope into ordered disjoint
groups, one group per filter, each collection going to the first filter
that matches its name; a collection matched by no filter lands in no group,
so callers append a catch-all filter when they need the remainder. -/
def group_collections (vars : Vars) (filters : List CFilter) : List Vars :=
  match filters with
  | [] => []
  | f :: rest =>
    vars.filter (fun p => in_filter f p.1) ::
      group_collections (vars.filter (fun p => !(in_filter f p.1))) rest

/-- The freeze step of pack (lift.py lines 90 to 98): inside every input
variable group, a collection whose name is matched by no output filter is
replaced by its immutable snapshot before being exposed to the payload. -/
def freezeInOnly (out_variable_filters : List CFilter)
    (variable_groups : List Vars) : List Vars :=
  variable_groups.map (fun variable_group =>
    variable_group.map (fun p =>
      if out_variable_filters.any (fun col_filter => in_filter col_filter p.1)
      then p else (p.1, freeze p.2)))

/-- The per-scope core of repack (lift.py lines 142 to 151): keep only the
collections that are not immutable snapshots, partition them by the output
filters plus a trailing catch-all, and fail with the unmapped output
variables error, naming the offending collections, when the catch-all
group is non-empty. -/
def repack_vars (out_variable_filters : List CFilter) (vs : Vars) :
    Except (String × List String) (List Vars) :=
  let mutable_variables := vs.filter (fun p => !(p.2.isFrozenDict))
  let out_variable_groups :=
    group_collections mutable_variables (out_variable_filters ++ [CFilter.matchAll])
  let remainder := (out_variable_groups.getLastD []).map Prod.fst
  if remainder.isEmpty then .ok out_variable_groups.dropLast
  else .error ("unmapped output variables", remainder)

/-- The names of the mutable collections matched by no output filter. -/
def unmappedOf (out_variable_filters : List CFilter) (vs : Vars) :
    List String :=
  (vs.filter
    (fun p => !(p.2.isFrozenDict) && !(matchesAny out_variable_filters p.1))).map
    Prod.fst

/-- One entry of the tree inspected by the batch size derivation of vmap
(lift.py find_axis_size, lines 309 to 314): the axis specification of the
entry together with the leading shapes of its leaves.  An axis mapped entry
with at least one leaf contributes the size of its first leaf along the
axis; every other entry contributes nothing. -/
def find_axis_size (axis : Option Nat) (leafShapes : List (List Nat)) :
    List Nat :=
  match axis, leafShapes with
  | some a, s :: _ => [s.getD a 0]
  | _, _ => []

/-- All axis sizes found over the inspected entries (lift.py line 322, the
tree of find_axis_size results flattened by tree_leaves). -/
def axis_sizes_found (entries : List (Option Nat × List (List Nat))) :
    List Nat :=
  (entries.map (fun e => find_axis_size e.1 e.2)).flatten

/-- The failures vmap can raise while deriving the batch axis size. -/
inductive VmapError where
  | inconsistentBatchAxisSizes (sizes : List Nat)
  | axisSizeShouldBeSpecifiedManually
deriving DecidableEq

/-- The batch size derivation of vmap (lift.py lines 322 to 331); the set of
distinct sizes found is modelled by the deduplicated list of sizes. -/
def infer_axis_size (axis_size : Option Nat)
    (entries : List (Option Nat × List (List Nat))) : Except VmapError Nat :=
  let axis_sizes := (axis_sizes_found entries).dedup
  if axis_size = none ∧ axis_sizes.length = 1 then .ok (axis_sizes.getD 0 0)
  else if 1 < axis_sizes.length then
    .error (.inconsistentBatchAxisSizes axis_sizes)
  else if axis_size = none then .error .axisSizeShouldBeSpecifiedManually
  else .ok (axis_size.getD 0)

/-- The static argument position shift of the compiled call lift
(lift.py line 591). -/
def shift_static_argnums (static_argnums : List Int) : List Int :=
  (static_argnums.filter (fun i => 0 < i)).map (fun i => i + 1)

/-- Freezing a whole variable group: modelled from the spec, the immutable
wrapper of frozen_dict.py (not part of the sources) renders every contained
collection immutable. -/
def freeze_group (g : Vars) : Vars := g.map (fun p => (p.1, freeze p.2))

/-- The variable groups handed to scope_fn by simple_scope_fn of the custom
gradient lift (lift.py lines 532 to 533): the gradient bearing group is
frozen before the scope is created, the remaining group passes through. -/
def simple_scope_fn_groups (grad_variables other_variables : Vars) :
    List Vars :=
  [freeze_group grad_variables, other_variables]

/-- The variable groups of the scope used by the forward pass f_fwd of the
custom vjp pair (lift.py lines 542 to 546): f_fwd builds its scope through
simple_scope_fn. -/
def f_fwd_scope_groups (grad_variables other_variables : Vars) : List Vars :=
  simple_scope_fn_groups grad_variables other_variables

/-- An event of the inner scope lifecycle of one pack call: creation or
invalidation of the inner scope with the given generation and index. -/
inductive ScopeEvent where
  | create (gen idx : Nat)
  | invalidate (gen idx : Nat)
deriving DecidableEq

/-- The closure state of pack (lift.py line 107): the currently live inner
scopes, each tagged with the scope_fn generation that created it, and the
number of scope_fn invocations so far. -/
structure PackState where
  live : List (Nat × Nat)
  gen : Nat
deriving DecidableEq

/-- One invocation of scope_fn (lift.py lines 108 to 131): every inner
scope left over from the previous invocation is invalidated first, then
the new generation of n inner scopes is created and recorded as the new
live list of the closure. -/
def scope_fn_step (n : Nat) (s : PackState) : List ScopeEvent × PackState :=
  let invs := s.live.map (fun p => ScopeEvent.invalidate p.1 p.2)
  let news := (List.range n).map (fun i => (s.gen + 1, i))
  (invs ++ news.map (fun p => ScopeEvent.create p.1 p.2),
   { live := news, gen := s.gen + 1 })

/-- The payload as seen by the lifecycle: it invokes scope_fn some number
k of times before finishing. -/
def run_payload (n : Nat) : Nat → PackState → List ScopeEvent × PackState
  | 0, s => ([], s)
  | k+1, s =>
    let r1 := scope_fn_step n s
    let r2 := run_payload n k r1.2
    (r1.1 ++ r2.1, r2.2)

/-- The cleanup of pack (lift.py lines 155 to 157): every still live inner
scope is invalidated. -/
def pack_cleanup (s : PackState) : List ScopeEvent :=
  s.live.map (fun p => ScopeEvent.invalidate p.1 p.2)

/-- The full lifecycle trace of a pack call over n reduplicated inner
scopes whose payload invokes scope_fn k times and then finishes with the
given outcome; the try/finally of pack (lift.py lines 152 to 157) appends
the cleanup whether the payload returned or raised. -/
def pack_lifecycle (n k : Nat) (outcome : Except Unit Unit) :
    List ScopeEvent :=
  let r := run_payload n k { live := [], gen := 0 }
  match outcome with
  | .ok _ => r.1 ++ pack_cleanup r.2
  | .error _ => r.1 ++ pack_cleanup r.2

/-- The live inner scopes left after a list of events, starting from a
given live list. -/
def applyEvents (start : List (Nat × Nat)) (evs : List ScopeEvent) :
    List (Nat × Nat) :=
  evs.foldl (fun acc e =>
    match e with
    | .create g i => acc ++ [(g, i)]
    | .invalidate g i => acc.erase (g, i)) start

/-- The live inner scopes after an initial segment of a lifecycle trace. -/
def liveAfter (evs : List ScopeEvent) : List (Nat × Nat) :=
  applyEvents [] evs

/-- All live scopes of a list belong to one generation. -/
def OneGen (l : List (Nat × Nat)) : Prop :=
  ∀ a ∈ l, ∀ b ∈ l, a.1 = b.1

/-- The closure invariant: every live inner scope was created by the most
recent scope_fn generation. -/
def PackInv (s : PackState) : Prop := ∀ a ∈ s.live, a.1 = s.gen

/-- Modelled from the spec: a scope object owns a name and a non owning
parent reference; the heap of scope objects is modelled as an arena of
records indexed by stable identifiers, as the spec design notes describe,
and a handle is an index into the arena. -/
structure ScopeNode where
  name : String
  parent : Option Nat
deriving DecidableEq

/-- The arena of scope records; a handle is an index into the list. -/
abbrev Arena := List ScopeNode

/-- The name of the scope behind a handle. -/
def nameOf (a : Arena) (i : Nat) : String := (a.getD i ⟨"", none⟩).name

/-- The parent handle of the scope behind a handle. -/
def parentOf (a : Arena) (i : Nat) : Option Nat := (a.getD i ⟨"", none⟩).parent

/-- Arena wellformedness: every parent reference points to an earlier
arena slot, so parent chains terminate. -/
def arenaWF (a : Arena) : Bool :=
  (List.range a.length).all (fun i =>
    match parentOf a i with
    | none => true
    | some p => decide (p < i))

/-- Sibling name uniqueness, an invariant of the scope tree stated by the
spec data model: two distinct children of one parent never share a name. -/
def childNamesUnique (a : Arena) : Bool :=
  (List.range a.length).all (fun i => (List.range a.length).all (fun j =>
    decide (i = j) || !((parentOf a i).isSome
      && decide (parentOf a i = parentOf a j)
      && decide (nameOf a i = nameOf a j))))

/-- First occurrence deduplication, mirroring the insertion of every handle
into an ordered dict keyed by object identity (lift.py line 43). -/
def ordNubAux : List Nat → List Nat → List Nat
  | _, [] => []
  | seen, x :: xs =>
    if x ∈ seen then ordNubAux seen xs else x :: ordNubAux (x :: seen) xs

/-- The handles of a list, first occurrences only, in order. -/
def ordNub (l : List Nat) : List Nat := ordNubAux [] l

/-- The ancestor walk of _dedup_scopes (lift.py lines 44 to 54) with
explicit fuel: climb from the leaf, remembering the outermost ancestor
seen in the minimal set together with the reversed name path to it. -/
def dedupWalk (a : Arena) (mset : List Nat) :
    Nat → Option Nat → Nat → List String → List String → Nat × List String
  | _, none, max_parent, max_parent_path, _ => (max_parent, max_parent_path)
  | 0, some _, max_parent, max_parent_path, _ => (max_parent, max_parent_path)
  | fuel+1, some s, max_parent, max_parent_path, path =>
    if s ∈ mset then
      dedupWalk a mset fuel (parentOf a s) s path.reverse
        (path ++ [nameOf a s])
    else
      dedupWalk a mset fuel (parentOf a s) max_parent max_parent_path
        (path ++ [nameOf a s])

/-- The main loop of _dedup_scopes (lift.py lines 44 to 57): walk each
leaf, drop the leaf from the minimal set when a proper ancestor of it is in
the set, and record the (root, path) pair of the leaf.  The deletion of
lift.py line 56 is an unguarded del of the leaf key: when the walk found a
proper ancestor but the leaf is no longer in the set, because an earlier
occurrence of the same handle already removed it, the del raises KeyError
and the loop aborts. -/
def dedupLoop (a : Arena) :
    List Nat → List Nat → List (Nat × List String) →
      Except String (List Nat × List (Nat × List String))
  | [], mset, paths => .ok (mset, paths)
  | leaf :: rest, mset, paths =>
    let mp := dedupWalk a mset a.length (parentOf a leaf) leaf [] [nameOf a leaf]
    if mp.1 ≠ leaf then
      if leaf ∈ mset then dedupLoop a rest (mset.erase leaf) (paths ++ [mp])
      else .error "KeyError"
    else dedupLoop a rest mset (paths ++ [mp])

/-- _dedup_scopes (lift.py lines 40 to 58) over the arena model: the
minimal ordered root set and one (root, path) pair per input handle, or the
KeyError raised by line 56 when a handle with a proper in-input ancestor
occurs more than once. -/
def _dedup_scopes (a : Arena) (scopes : List Nat) :
    Except String (List Nat × List (Nat × List String)) :=
  dedupLoop a scopes (ordNub scopes) []

/-- The handles examined by an ancestor walk starting at an optional
handle: the handle itself, then its parent chain, bounded by fuel. -/
def chainO (a : Arena) : Nat → Option Nat → List Nat
  | _, none => []
  | 0, some _ => []
  | fuel+1, some s => s :: chainO a fuel (parentOf a s)

/-- The proper ancestors of a handle, nearest first. -/
def ancestorsOf (a : Arena) (i : Nat) : List Nat :=
  chainO a a.length (parentOf a i)

/-- Whether some proper ancestor of the handle lies in the given list. -/
def hasProperAncestorIn (a : Arena) (s : List Nat) (i : Nat) : Bool :=
  (ancestorsOf a i).any (fun x => decide (x ∈ s))

/-- The outermost handle of a parent chain that lies in the given list:
the search prefers the deepest recursion, hence the outermost match. -/
def oaSpec (a : Arena) (s : List Nat) : Nat → Option Nat → Option Nat
  | _, none => none
  | 0, some _ => none
  | fuel+1, some x =>
    match oaSpec a s fuel (parentOf a x) with
    | some r => some r
    | none => if x ∈ s then some x else none

/-- The outermost ancestor of a handle present in the given list, the
handle itself when no proper ancestor is present. -/
def outermostAncestorIn (a : Arena) (s : List Nat) (i : Nat) : Nat :=
  (oaSpec a s a.length (parentOf a i)).getD i

/-- The child name path from an ancestor down to a handle, with fuel. -/
def pathBelowF (a : Arena) : Nat → Nat → Nat → Option (List String)
  | 0, w, i => if i = w then some [] else none
  | fuel+1, w, i =>
    if i = w then some []
    else
      match parentOf a i with
      | none => none
      | some p => (pathBelowF a fuel w p).map (fun q => q ++ [nameOf a i])

/-- The child name path from an ancestor down to a handle. -/
def pathBelow (a : Arena) (w i : Nat) : Option (List String) :=
  pathBelowF a a.length w i

/-- The search spec of the ancestor walk: the outermost ancestor found in
the set together with the name path accumulated on the way. -/
def walkSpec (a : Arena) (mset : List Nat) :
    Nat → Option Nat → List String → Option (Nat × List String)
  | _, none, _ => none
  | 0, some _, _ => none
  | fuel+1, some s, path =>
    match walkSpec a mset fuel (parentOf a s) (path ++ [nameOf a s]) with
    | some r => some r
    | none => if s ∈ mset then some (s, path.reverse) else none

/-- Linear scan for a matching arena slot, from index i, over fuel slots. -/
def findFrom (b : Arena) (p : Nat) (nm : String) : Nat → Nat → Option Nat
  | _, 0 => none
  | i, fuel+1 =>
    if parentOf b i = some p ∧ nameOf b i = nm then some i
    else findFrom b p nm (i+1) fuel

/-- The existing child of the given parent with the given name, if any:
the lowest-index matching arena slot. -/
def findChild (b : Arena) (p : Nat) (nm : String) : Option Nat :=
  findFrom b p nm 0 b.length

/-- Modelled from the spec: push with reuse (scope.py, not part of the
sources) returns the existing child of the given name when present and
otherwise creates a fresh child scope, here appended to the arena. -/
def push (b : Arena) (p : Nat) (nm : String) : Arena × Nat :=
  match findChild b p nm with
  | some c => (b, c)
  | none => (b ++ [⟨nm, some p⟩], b.length)

/-- Repeated push with reuse along a child name path
(lift.py lines 65 to 66). -/
def pushPath (b : Arena) (s : Nat) : List String → Arena × Nat
  | [] => (b, s)
  | nm :: rest =>
    let r := push b s nm
    pushPath r.1 r.2 rest

/-- _dup_scopes (lift.py lines 60 to 68) over the arena model: map each
recorded root through the zip of original roots with fresh scopes, then
recreate each original handle by pushing along its recorded path. -/
def _dup_scopes (b : Arena) (mapping : List (Nat × Nat))
    (paths : List (Nat × List String)) : Arena × List Nat :=
  paths.foldl (fun acc rp =>
    let start := ((mapping.lookup rp.1).getD 0)
    let r := pushPath acc.1 start rp.2
    (r.1, acc.2 ++ [r.2])) (b, [])

/-- A structurally equivalent, freshly created root set: one parentless
scope per deduplicated root, carrying the root's name. -/
def freshRoots (a : Arena) (roots : List Nat) : Arena :=
  roots.map (fun r => ⟨nameOf a r, none⟩)

/-- Deduplicate the handles, then reduplicate against the freshly created
root set: the round trip of the two halves of the adapter, propagating the
KeyError of the deduplication. -/
def dedup_dup_roundtrip (a : Arena) (scopes : List Nat) :
    Except String (Arena × List Nat) :=
  match _dedup_scopes a scopes with
  | .error e => .error e
  | .ok dd =>
    .ok (_dup_scopes (freshRoots a dd.1) (dd.1.zip (List.range dd.1.length))
      dd.2)

/-- Walking a child name path downward by name lookup. -/
def descend (b : Arena) (s : Nat) : List String → Option Nat
  | [] => some s
  | nm :: rest =>
    match findChild b s nm with
    | some c => descend b c rest
    | none => none

/-- The root and the name path of a handle, found by climbing the parent
chain, with fuel. -/
def upPathF (b : Arena) : Nat → Nat → Nat × List String
  | 0, i => (i, [])
  | fuel+1, i =>
    match parentOf b i with
    | none => (i, [])
    | some p =>
      let r := upPathF b fuel p
      (r.1, r.2 ++ [nameOf b i])

/-- The root and the name path of a handle. -/
def upPath (b : Arena) (i : Nat) : Nat × List String :=
  upPathF b b.length i

/-- Whether a proper ancestor of the handle lies in the list, computed by
the outermost ancestor search. -/
def hasAncB (a : Arena) (scopes : List Nat) (x : Nat) : Bool :=
  (oaSpec a scopes a.length (parentOf a x)).isSome

/-- The minimal set as maintained by the dedup loop: the first occurrences
of the input handles, minus every processed handle that has a proper input
ancestor. -/
def msetOf (a : Arena) (scopes processed : List Nat) : List Nat :=
  (ordNub scopes).filter
    (fun x => !(decide (x ∈ processed) && hasAncB a scopes x))

/-- A three node scope tree used by the concrete witnesses: a root named
root, its child named b, and a grandchild named c. -/
def demoArena : Arena :=
  [⟨"root", none⟩, ⟨"b", some 0⟩, ⟨"c", some 1⟩]

/-- Modelled from the spec: the mutable store backing the canonical outer
scopes, a mapping from scope handle to its variable collections. -/
abbrev Store := Nat → Vars

/-- Setting one entry of an entry list: overwrite an existing key or
append a new one. -/
def setEntry (e : List (String × Nat)) (k : String) (v : Nat) :
    List (String × Nat) :=
  if e.any (fun q => q.1 = k) then
    e.map (fun q => if q.1 = k then (k, v) else q)
  else e ++ [(k, v)]

/-- Modelled from the spec: put_variable of scope.py (not under the
sources) writes one variable through to a mutable collection of one scope,
creating the collection when absent. -/
def varsPut (vs : Vars) (col n : String) (v : Nat) : Vars :=
  if vs.any (fun q => q.1 = col) then
    vs.map (fun q =>
      if q.1 = col then (col, Col.mutCol (setEntry q.2.entries n v)) else q)
  else vs ++ [(col, Col.mutCol [(n, v)])]

/-- One put_variable call on the store: only the addressed scope changes. -/
def put_variable (st : Store) (sid : Nat) (col n : String) (v : Nat) :
    Store :=
  fun j => if j = sid then varsPut (st sid) col n v else st j

/-- An observable event of a pack call at the outer store. -/
inductive PackEvent where
  | payloadReturned
  | putVariable (sid : Nat) (col n : String) (value : Nat)
deriving DecidableEq

/-- The innermost write back loop (lift.py line 161 to 162): one
put_variable per entry of one collection, recorded in the trace. -/
def put_entries (sid : Nat) (col : String) (es : List (String × Nat))
    (acc : Store × List PackEvent) : Store × List PackEvent :=
  es.foldl (fun acc nv =>
    (put_variable acc.1 sid col nv.1 nv.2,
     acc.2 ++ [PackEvent.putVariable sid col nv.1 nv.2])) acc

/-- The per-group write back loop (lift.py line 160). -/
def put_group (sid : Nat) (g : Vars) (acc : Store × List PackEvent) :
    Store × List PackEvent :=
  g.foldl (fun acc cp => put_entries sid cp.1 cp.2.entries acc) acc

/-- The per-scope write back loop (lift.py line 159). -/
def put_groups (sid : Nat) (gs : List Vars) (acc : Store × List PackEvent) :
    Store × List PackEvent :=
  gs.foldl (fun acc g => put_group sid g acc) acc

/-- The write back loop of pack (lift.py lines 158 to 162): for every
deduplicated scope, write every entry of every yielded output collection
through put_variable, tracing each write. -/
def write_back (scopes : List Nat) (out_variable_groups_xs : List (List Vars))
    (st : Store) : Store × List PackEvent :=
  (scopes.zip out_variable_groups_xs).foldl
    (fun acc sg => put_groups sg.1 sg.2 acc) (st, [])

/-- The pack wrapper at the store level (lift.py lines 79 to 163): extract
and group the variable collections of every deduplicated scope, freeze the
input only collections, run the payload as a pure function of those groups,
and finally write every yielded output entry back into the canonical outer
scopes; the trace marks the payload return, then the writes.  A KeyError of
the deduplication propagates out of the wrapper. -/
def pack_wrapper {α : Type} (a : Arena) (handles : List Nat)
    (in_f out_f : List CFilter)
    (fn : List (List Vars) → α × List (List Vars)) (st : Store) :
    Except String (α × Store × List PackEvent) :=
  match _dedup_scopes a handles with
  | .error e => .error e
  | .ok dd =>
    let scopes := dd.1
    let variable_groups_xs := scopes.map (fun sid =>
      freezeInOnly out_f (group_collections (st sid) in_f))
    let r := fn variable_groups_xs
    let wb := write_back scopes r.2 st
    .ok (r.1, wb.1, PackEvent.payloadReturned :: wb.2)

/-- Re-insertion of broadcast collections into an iteration's broadcast
output group (lift.py lines 465 to 470): a collection of the input group
whose name is absent from the output group is added back with its input
value, so the iteration's output shape matches its input shape. -/
def reinsert_broadcast (in_group out_group : Vars) : Vars :=
  in_group.foldl (fun og p =>
    if og.any (fun q => q.1 = p.1) then og else og ++ [p]) out_group

/-- Deletion of the immutable broadcast collections from the collected
output after the loop (lift.py lines 479 to 484). -/
def drop_frozen_broadcast (out_group : Vars) : Vars :=
  out_group.filter (fun p => !(p.2.isFrozenDict))

/-- The inner scope variables built by scope_fn from the variable groups
(lift.py lines 117 to 120): the union of the groups. -/
def scope_fn_vars (variable_groups : List Vars) : Vars :=
  variable_groups.foldl (fun vs g => vs ++ g) []

/-- One iteration body of the loop lift (lift.py scanned, lines 453 to
471), at its single scope instance: rebuild the variable groups from the
broadcast group, the carry group and the scanned groups, run the payload
on their union, repack by the output filters (the broadcast filter, the
carry filter, then the scanned filters), and add the immutable broadcast
collections missing from the broadcast output group back into it. -/
def scanned {C : Type} (out_f : List CFilter) (fn : Vars → C → Vars × C)
    (broadcast_vars : Vars) (carry : Vars × C) (scan_vars : List Vars) :
    Except (String × List String) (Vars × (Vars × C) × List Vars) :=
  let variable_groups := broadcast_vars :: carry.1 :: scan_vars
  let r := fn (scope_fn_vars variable_groups) carry.2
  match repack_vars out_f r.1 with
  | .error e => .error e
  | .ok out_groups =>
    .ok (reinsert_broadcast broadcast_vars (out_groups.headD []),
         (out_groups.getD 1 [], r.2), out_groups.drop 2)

/-- The loop of the scan lift: iterate the body, threading the broadcast
output of an iteration into the next iteration's broadcast input, as the
pure scan primitive of axes_scan feeds broadcast values (modelled from the
spec; axes_scan.py is not part of the sources), and threading the carry. -/
def scan_loop {C : Type} (out_f : List CFilter) (fn : Vars → C → Vars × C)
    (svf : Nat → List Vars) :
    Nat → Vars → (Vars × C) →
      Except (String × List String) (Vars × (Vars × C) × List (List Vars))
  | 0, b, cc => .ok (b, cc, [])
  | k+1, b, cc =>
    match scanned out_f fn b cc (svf k) with
    | .error e => .error e
    | .ok r =>
      match scan_loop out_f fn svf k r.1 r.2.1 with
      | .error e => .error e
      | .ok rr => .ok (rr.1, rr.2.1, r.2.2 :: rr.2.2)

/-- The scan lift around the loop (lift.py inner, lines 477 to 488): after
the loop, the immutable broadcast collections are deleted from the
collected broadcast output so they are not applied back with their own
value. -/
def scan_inner {C : Type} (out_f : List CFilter) (fn : Vars → C → Vars × C)
    (svf : Nat → List Vars) (len : Nat) (broadcast_vars : Vars)
    (carry : Vars × C) :
    Except (String × List String) (Vars × (Vars × C) × List (List Vars)) :=
  match scan_loop out_f fn svf len broadcast_vars carry with
  | .error e => .error e
  | .ok r => .ok (drop_frozen_broadcast r.1, r.2.1, r.2.2)

theorem group_collections_append_all (filters : List CFilter) :
    ∀ vs : Vars, group_collections vs (filters ++ [CFilter.matchAll]) =
      group_collections vs filters ++
        [vs.filter (fun p => !(matchesAny filters p.1))] := by
  induction filters with
  | nil =>
    intro vs
    simp [group_collections, matchesAny, in_filter]
  | cons f rest ih =>
    intro vs
    have hcd : (vs.filter (fun p => !(in_filter f p.1))).filter
        (fun p => !(matchesAny rest p.1)) =
        vs.filter (fun p => !(matchesAny (f :: rest) p.1)) := by
      rw [List.filter_filter]
      apply List.filter_congr
      intro p _
      simp [matchesAny, Bool.not_or, Bool.and_comm]
    simp only [List.cons_append, group_collections, List.append_eq, ih, hcd]

theorem group_collections_mem_sub (filters : List CFilter) :
    ∀ vs g : Vars, g ∈ group_collections vs filters → ∀ p ∈ g, p ∈ vs := by
  induction filters with
  | nil =>
    intro vs g hg
    simp [group_collections] at hg
  | cons f rest ih =>
    intro vs g hg p hp
    simp only [group_collections, List.mem_cons] at hg
    rcases hg with hg | hg
    · exact List.mem_of_mem_filter (hg ▸ hp)
    · exact List.mem_of_mem_filter (ih _ _ hg p hp)

theorem freeze_isFrozenDict (c : Col) : (freeze c).isFrozenDict = true := by
  cases c <;> rfl

theorem repack_vars_eq (outs : List CFilter) (vs : Vars) :
    repack_vars outs vs =
      if (unmappedOf outs vs).isEmpty then
        .ok (group_collections (vs.filter (fun p => !(p.2.isFrozenDict))) outs)
      else .error ("unmapped output variables", unmappedOf outs vs) := by
  have hm : ((vs.filter (fun p => !(p.2.isFrozenDict))).filter
      (fun p => !(matchesAny outs p.1))).map Prod.fst = unmappedOf outs vs := by
    rw [List.filter_filter]
    unfold unmappedOf
    congr 1
    apply List.filter_congr
    intro p _
    rw [Bool.and_comm]
  simp only [repack_vars]
  rw [group_collections_append_all, List.getLastD_concat, List.dropLast_concat, hm]

theorem unmappedOf_mem (outs : List CFilter) (vs : Vars) (n : String) :
    n ∈ unmappedOf outs vs ↔
      ∃ c, (n, c) ∈ vs ∧ c.isFrozenDict = false ∧ matchesAny outs n = false := by
  constructor
  · intro h
    simp only [unmappedOf, List.mem_map] at h
    obtain ⟨p, hp, rfl⟩ := h
    rw [List.mem_filter] at hp
    obtain ⟨hpv, hcond⟩ := hp
    rw [Bool.and_eq_true, Bool.not_eq_true', Bool.not_eq_true'] at hcond
    exact ⟨p.2, hpv, hcond.1, hcond.2⟩
  · intro h
    obtain ⟨c, hv, h1, h2⟩ := h
    simp only [unmappedOf, List.mem_map]
    refine ⟨(n, c), ?_, rfl⟩
    rw [List.mem_filter]
    exact ⟨hv, by rw [h1, h2]; rfl⟩

theorem repack_vars_ok_shape (outs : List CFilter) (vs : Vars)
    (gs : List Vars) (hok : repack_vars outs vs = .ok gs) :
    gs = group_collections (vs.filter (fun p => !(p.2.isFrozenDict))) outs := by
  rw [repack_vars_eq] at hok
  by_cases he : (unmappedOf outs vs).isEmpty
  · rw [if_pos he] at hok
    simp only [Except.ok.injEq] at hok
    exact hok.symm
  · rw [if_neg he] at hok
    exact Except.noConfusion hok

/-- C2: repack raises the unmapped output variables error naming exactly the
mutable collections of the inner scope matched by no output filter, and when
every mutable collection matches some output filter the mutable collections
are instead partitioned into the declared output groups. -/
theorem repack_unmapped_output_variables (outs : List CFilter) (vs : Vars) :
    (repack_vars outs vs =
      if (unmappedOf outs vs).isEmpty then
        .ok (group_collections (vs.filter (fun p => !(p.2.isFrozenDict))) outs)
      else .error ("unmapped output variables", unmappedOf outs vs)) ∧
    (∀ n, n ∈ unmappedOf outs vs ↔
      ∃ c, (n, c) ∈ vs ∧ c.isFrozenDict = false ∧ matchesAny outs n = false) :=
  ⟨repack_vars_eq outs vs, fun n => unmappedOf_mem outs vs n⟩

/-- C1: a collection of a deduplicated input scope matched by no output
filter is frozen to an immutable snapshot before exposure to the payload;
repack excludes immutable snapshots from the output groups, so such a
collection is never written back, and returning it as mutated instead
raises the unmapped output variables error. -/
theorem pack_input_only_collections_protected (outs : List CFilter) :
    (∀ (groups : List Vars) (g : Vars) (n : String) (c : Col),
        g ∈ freezeInOnly outs groups → (n, c) ∈ g →
        matchesAny outs n = false → c.isFrozenDict = true) ∧
    (∀ (vs : Vars) (out_groups : List Vars) (g : Vars) (n : String) (c : Col),
        repack_vars outs vs = .ok out_groups → g ∈ out_groups → (n, c) ∈ g →
        c.isFrozenDict = false ∧ (n, c) ∈ vs) ∧
    (∀ (vs : Vars) (n : String) (c : Col),
        (n, c) ∈ vs → c.isFrozenDict = false → matchesAny outs n = false →
        ∃ names, repack_vars outs vs = .error ("unmapped output variables", names)
          ∧ n ∈ names) := by
  refine ⟨?_, ?_, ?_⟩
  · intro groups g n c hg hnc hno
    simp only [freezeInOnly, List.mem_map] at hg
    obtain ⟨g0, _, rfl⟩ := hg
    simp only [List.mem_map] at hnc
    obtain ⟨p, _, hp⟩ := hnc
    by_cases hio : (outs.any (fun col_filter => in_filter col_filter p.1)) = true
    · rw [if_pos hio] at hp
      have hn : p.1 = n := congrArg Prod.fst hp
      rw [hn] at hio
      rw [show matchesAny outs n = outs.any (fun f => in_filter f n) from rfl] at hno
      rw [hno] at hio
      exact absurd hio (by simp)
    · rw [if_neg hio] at hp
      have hc : freeze p.2 = c := congrArg Prod.snd hp
      rw [← hc]
      exact freeze_isFrozenDict p.2
  · intro vs out_groups g n c hok hg hnc
    have hshape := repack_vars_ok_shape outs vs out_groups hok
    subst hshape
    have hmem := group_collections_mem_sub outs _ g hg (n, c) hnc
    rw [List.mem_filter] at hmem
    obtain ⟨hv, hm⟩ := hmem
    rw [Bool.not_eq_true'] at hm
    exact ⟨hm, hv⟩
  · intro vs n c hv hmut hnm
    have hmem : n ∈ unmappedOf outs vs :=
      (unmappedOf_mem outs vs n).2 ⟨c, hv, hmut, hnm⟩
    have hne : ¬ ((unmappedOf outs vs).isEmpty = true) := by
      intro h
      rw [List.isEmpty_iff] at h
      rw [h] at hmem
      exact (List.not_mem_nil n) hmem
    exact ⟨unmappedOf outs vs, by rw [repack_vars_eq, if_neg hne], hmem⟩

/-- Witness for C1 at concrete inputs: with output filter matching only the
params collection, the state collection is frozen on the way in, repacked
output entries are mutable entries of the inner scope, and returning a
mutated state collection raises the unmapped output variables error. -/
theorem pack_input_only_collections_protected_witness :
    (Col.frozenCol [("x", 1)]).isFrozenDict = true ∧
    ((Col.mutCol [("y", 2)]).isFrozenDict = false ∧
      ("params", Col.mutCol [("y", 2)]) ∈
        ([("params", Col.mutCol [("y", 2)])] : Vars)) ∧
    (∃ names,
      repack_vars [CFilter.matchNames ["params"]]
          [("state", Col.mutCol [("x", 1)])] =
        .error ("unmapped output variables", names) ∧ "state" ∈ names) :=
  ⟨(pack_input_only_collections_protected [CFilter.matchNames ["params"]]).1
      [[("state", Col.mutCol [("x", 1)])]]
      [("state", Col.frozenCol [("x", 1)])] "state" (Col.frozenCol [("x", 1)])
      (by decide) (by decide) (by decide),
   (pack_input_only_collections_protected [CFilter.matchNames ["params"]]).2.1
      [("params", Col.mutCol [("y", 2)])]
      [[("params", Col.mutCol [("y", 2)])]]
      [("params", Col.mutCol [("y", 2)])] "params" (Col.mutCol [("y", 2)])
      (by rfl) (by decide) (by decide),
   (pack_input_only_collections_protected [CFilter.matchNames ["params"]]).2.2
      [("state", Col.mutCol [("x", 1)])] "state" (Col.mutCol [("x", 1)])
      (by decide) (by decide) (by decide)⟩

/-- C7: vmap derives one common batch size from the leading shape of every
axis mapped leaf; more than one distinct size found is the inconsistent
batch axis size error listing the distinct sizes, no size found without an
explicit axis_size is the error instructing the caller to specify it, and
otherwise the single found size, or the explicit axis_size, is used. -/
theorem vmap_batch_size_inference (axis_size : Option Nat)
    (entries : List (Option Nat × List (List Nat))) :
    (1 < ((axis_sizes_found entries).dedup).length →
      infer_axis_size axis_size entries =
        .error (.inconsistentBatchAxisSizes ((axis_sizes_found entries).dedup)) ∧
      ∀ n, n ∈ (axis_sizes_found entries).dedup ↔ n ∈ axis_sizes_found entries) ∧
    (axis_sizes_found entries = [] → axis_size = none →
      infer_axis_size axis_size entries =
        .error .axisSizeShouldBeSpecifiedManually) ∧
    (∀ s, (axis_sizes_found entries).dedup = [s] → axis_size = none →
      infer_axis_size axis_size entries = .ok s) ∧
    (∀ v, axis_size = some v → ((axis_sizes_found entries).dedup).length ≤ 1 →
      infer_axis_size axis_size entries = .ok v) := by
  refine ⟨?_, ?_, ?_, ?_⟩
  · intro hlen
    refine ⟨?_, fun n => List.mem_dedup⟩
    simp only [infer_axis_size]
    rw [if_neg (fun h => absurd h.2 (by omega)), if_pos hlen]
  · intro hnil hnone
    subst hnone
    simp [infer_axis_size, hnil]
  · intro s hs hnone
    subst hnone
    simp [infer_axis_size, hs]
  · intro v hv hlen
    subst hv
    simp only [infer_axis_size]
    rw [if_neg (by simp), if_neg (by omega), if_neg (by simp)]
    rfl

/-- Witness for C7 at concrete inputs: leading sizes 4 and 5 under axis 0
raise the inconsistency error listing 4 and 5, no sizes and no explicit
axis_size raise the specify-manually error, and leading sizes 4 and 4
infer the size 4. -/
theorem vmap_batch_size_inference_witness :
    (1 < ((axis_sizes_found
        [(some 0, [[4, 3]]), (some 0, [[5, 3]])]).dedup).length ∧
      infer_axis_size none [(some 0, [[4, 3]]), (some 0, [[5, 3]])] =
        .error (.inconsistentBatchAxisSizes [4, 5])) ∧
    (infer_axis_size none ([] : List (Option Nat × List (List Nat))) =
      .error .axisSizeShouldBeSpecifiedManually) ∧
    (infer_axis_size none [(some 0, [[4, 3], [9]]), (some 0, [[4, 7]])] =
      .ok 4) :=
  ⟨⟨by decide,
    ((vmap_batch_size_inference none
      [(some 0, [[4, 3]]), (some 0, [[5, 3]])]).1 (by decide)).1⟩,
   (vmap_batch_size_inference none []).2.1 (by decide) rfl,
   (vmap_batch_size_inference none
      [(some 0, [[4, 3], [9]]), (some 0, [[4, 7]])]).2.2.1 4 (by decide) rfl⟩

/-- Counterexample to C9 as stated: the caller supplied static position 0
is not treated as position 1 of the wrapped function; it is discarded, so
the shifted list for the singleton list holding 0 is empty. -/
theorem jit_static_argnums_zero_dropped :
    shift_static_argnums [0] = [] ∧ ¬ ((1 : Int) ∈ shift_static_argnums [0]) := by
  decide

/-- C9 amended: a caller supplied static position i with 0 < i is treated as
compile time constant position i + 1 of the wrapped function; positions that
are not positive, in particular position 0 holding the implicitly prepended
scope argument, are discarded rather than shifted.  When every supplied
position is positive the whole list is shifted by one. -/
theorem jit_static_argnums_shift (l : List Int) :
    (∀ j, j ∈ shift_static_argnums l ↔ ∃ i, i ∈ l ∧ 0 < i ∧ j = i + 1) ∧
    ((∀ i ∈ l, 0 < i) →
      shift_static_argnums l = l.map (fun i => i + 1)) := by
  constructor
  · intro j
    simp only [shift_static_argnums, List.mem_map, List.mem_filter]
    constructor
    · rintro ⟨i, ⟨hi, hpos⟩, rfl⟩
      exact ⟨i, hi, by simpa using hpos, rfl⟩
    · rintro ⟨i, hi, hpos, rfl⟩
      exact ⟨i, ⟨hi, by simpa using hpos⟩, rfl⟩
  · intro hall
    have hfe : l.filter (fun i => decide (0 < i)) = l :=
      List.filter_eq_self.mpr (fun a ha => by simpa using hall a ha)
    simp only [shift_static_argnums, hfe]

/-- Witness for C9 amended at a concrete input: the all-positive list of
positions 1 and 3 is shifted to positions 2 and 4. -/
theorem jit_static_argnums_shift_witness :
    (∀ i ∈ ([1, 3] : List Int), 0 < i) ∧
    shift_static_argnums [1, 3] = [2, 4] :=
  ⟨by decide, by rw [(jit_static_argnums_shift [1, 3]).2 (by decide)]; rfl⟩

/-- C10: the scope reconstruction callable handed to the backward function,
and the forward pass of the custom vjp pair, receive the gradient bearing
collections only as immutable snapshots, so the gradient variables cannot be
mutated through the scopes they construct. -/
theorem custom_vjp_grad_frozen (grad other : Vars) :
    (∀ p ∈ (simple_scope_fn_groups grad other).headD [],
      (p.2).isFrozenDict = true) ∧
    f_fwd_scope_groups grad other = simple_scope_fn_groups grad other := by
  constructor
  · intro p hp
    have hm : p ∈ freeze_group grad := hp
    simp only [freeze_group, List.mem_map] at hm
    obtain ⟨q, _, rfl⟩ := hm
    exact freeze_isFrozenDict q.2
  · rfl

/-- Witness for C10 at a concrete input: a mutable params collection is
exposed by simple_scope_fn as a frozen snapshot. -/
theorem custom_vjp_grad_frozen_witness :
    (("params", Col.frozenCol [("w", 3)]) ∈
      (simple_scope_fn_groups [("params", Col.mutCol [("w", 3)])] []).headD [])
    ∧ (Col.frozenCol [("w", 3)]).isFrozenDict = true :=
  ⟨by decide,
   (custom_vjp_grad_frozen [("params", Col.mutCol [("w", 3)])] []).1
      ("params", Col.frozenCol [("w", 3)]) (by decide)⟩

theorem applyEvents_append (start : List (Nat × Nat))
    (t1 t2 : List ScopeEvent) :
    applyEvents start (t1 ++ t2) = applyEvents (applyEvents start t1) t2 :=
  List.foldl_append _ _ _ _

theorem prefix_append_cases {α : Type} (l1 l2 t : List α)
    (h : t <+: l1 ++ l2) :
    t <+: l1 ∨ ∃ t2, t = l1 ++ t2 ∧ t2 <+: l2 := by
  rcases Nat.le_total t.length l1.length with hle | hge
  · left
    exact List.prefix_of_prefix_length_le h (List.prefix_append l1 l2) hle
  · right
    obtain ⟨r, hr⟩ := h
    have htake : t.take l1.length = l1 := by
      have h1 : (t ++ r).take l1.length = t.take l1.length := by
        rw [List.take_append_of_le_length hge]
      rw [hr, List.take_left] at h1
      exact h1.symm
    refine ⟨t.drop l1.length, ?_, ?_⟩
    · conv_lhs => rw [← List.take_append_drop l1.length t]
      rw [htake]
    · have h2 : (t.take l1.length ++ t.drop l1.length) ++ r = l1 ++ l2 := by
        rw [List.take_append_drop]; exact hr
      rw [htake, List.append_assoc] at h2
      have h3 := List.append_cancel_left h2
      exact ⟨r, h3⟩

theorem applyEvents_invs_take (l : List (Nat × Nat)) :
    ∀ t, t <+: l.map (fun p => ScopeEvent.invalidate p.1 p.2) →
      applyEvents l t = l.drop t.length := by
  induction l with
  | nil =>
    intro t ht
    have hnil : t = [] := List.prefix_nil.mp (by simpa using ht)
    subst hnil
    rfl
  | cons p rest ih =>
    intro t ht
    match t with
    | [] => rfl
    | e :: t' =>
      rw [List.map_cons] at ht
      have he : e = ScopeEvent.invalidate p.1 p.2 ∧
          t' <+: rest.map (fun p => ScopeEvent.invalidate p.1 p.2) := by
        rw [List.cons_prefix_cons] at ht
        exact ht
      obtain ⟨rfl, ht'⟩ := he
      have hstep : applyEvents (p :: rest) (ScopeEvent.invalidate p.1 p.2 :: t')
          = applyEvents rest t' := by
        simp only [applyEvents, List.foldl_cons]
        congr 1
        rw [show ((p.1, p.2) : Nat × Nat) = p from rfl, List.erase_cons_head]
      rw [hstep, ih t' ht']
      rfl

theorem applyEvents_creates_take (news : List (Nat × Nat)) :
    ∀ (start : List (Nat × Nat)) (t : List ScopeEvent),
      t <+: news.map (fun p => ScopeEvent.create p.1 p.2) →
      applyEvents start t = start ++ news.take t.length := by
  induction news with
  | nil =>
    intro start t ht
    have hnil : t = [] := List.prefix_nil.mp (by simpa using ht)
    subst hnil
    simp [applyEvents]
  | cons q rest ih =>
    intro start t ht
    match t with
    | [] => simp [applyEvents]
    | e :: t' =>
      rw [List.map_cons, List.cons_prefix_cons] at ht
      obtain ⟨rfl, ht'⟩ := ht
      have hstep : applyEvents start (ScopeEvent.create q.1 q.2 :: t')
          = applyEvents (start ++ [q]) t' := by
        simp only [applyEvents, List.foldl_cons]
      rw [hstep, ih (start ++ [q]) t' ht']
      simp [List.append_assoc]

theorem scope_fn_step_take (n : Nat) (s : PackState) (hgen : PackInv s) :
    (∀ t, t <+: (scope_fn_step n s).1 → OneGen (applyEvents s.live t)) ∧
    applyEvents s.live (scope_fn_step n s).1 = (scope_fn_step n s).2.live ∧
    PackInv (scope_fn_step n s).2 := by
  have hinvfull :
      applyEvents s.live (s.live.map (fun p => ScopeEvent.invalidate p.1 p.2))
        = [] := by
    rw [applyEvents_invs_take s.live _ (List.prefix_refl _),
      List.length_map, List.drop_length]
  refine ⟨?_, ?_, ?_⟩
  · intro t ht
    simp only [scope_fn_step] at ht
    rcases prefix_append_cases _ _ t ht with hcase | ⟨t2, rfl, ht2⟩
    · rw [applyEvents_invs_take s.live t hcase]
      intro a ha b hb
      have ha' := hgen a (List.drop_subset _ _ ha)
      have hb' := hgen b (List.drop_subset _ _ hb)
      rw [ha', hb']
    · rw [applyEvents_append, hinvfull,
        applyEvents_creates_take _ [] t2 ht2]
      intro a ha b hb
      simp only [List.nil_append] at ha hb
      have ha' := List.take_subset _ _ ha
      have hb' := List.take_subset _ _ hb
      simp only [List.mem_map, List.mem_range] at ha' hb'
      obtain ⟨i, _, rfl⟩ := ha'
      obtain ⟨j, _, rfl⟩ := hb'
      rfl
  · show applyEvents s.live (_ ++ _) = _
    rw [applyEvents_append, hinvfull,
      applyEvents_creates_take _ [] _ (List.prefix_refl _),
      List.nil_append, List.length_map, List.take_length]
    rfl
  · intro a ha
    simp only [scope_fn_step, List.mem_map, List.mem_range] at ha
    obtain ⟨i, _, rfl⟩ := ha
    rfl

theorem run_payload_spec (n : Nat) : ∀ (k : Nat) (s : PackState), PackInv s →
    (∀ t, t <+: (run_payload n k s).1 → OneGen (applyEvents s.live t)) ∧
    applyEvents s.live (run_payload n k s).1 = (run_payload n k s).2.live ∧
    PackInv (run_payload n k s).2 := by
  intro k
  induction k with
  | zero =>
    intro s hs
    refine ⟨?_, rfl, hs⟩
    intro t ht
    have hnil : t = [] := List.prefix_nil.mp ht
    subst hnil
    intro a ha b hb
    rw [hs a ha, hs b hb]
  | succ k ih =>
    intro s hs
    obtain ⟨hstep1, hstep2, hstep3⟩ := scope_fn_step_take n s hs
    obtain ⟨ih1, ih2, ih3⟩ := ih (scope_fn_step n s).2 hstep3
    refine ⟨?_, ?_, ih3⟩
    · intro t ht
      have ht' : t <+: (scope_fn_step n s).1 ++
          (run_payload n k (scope_fn_step n s).2).1 := ht
      rcases prefix_append_cases _ _ t ht' with hc | ⟨t2, rfl, ht2⟩
      · exact hstep1 t hc
      · rw [applyEvents_append, hstep2]
        exact ih1 t2 ht2
    · show applyEvents s.live (_ ++ _) = _
      rw [applyEvents_append, hstep2]
      exact ih2

/-- C5: in every pack call the inner scopes of one scope_fn invocation are
invalidated before the next invocation creates new ones, so after every
initial segment of the lifecycle trace the live inner scopes belong to at
most one generation; and whether the payload returns normally or raises,
every remaining live inner scope is invalidated before the pack call
finishes, leaving no live inner scope. -/
theorem pack_inner_scope_lifecycle (n k : Nat) (outcome : Except Unit Unit) :
    (∀ t, t <+: pack_lifecycle n k outcome → OneGen (liveAfter t)) ∧
    liveAfter (pack_lifecycle n k outcome) = [] := by
  obtain ⟨h1, h2, h3⟩ := run_payload_spec n k { live := [], gen := 0 }
    (by intro a ha; simp at ha)
  have hlc : pack_lifecycle n k outcome =
      (run_payload n k { live := [], gen := 0 }).1 ++
        pack_cleanup (run_payload n k { live := [], gen := 0 }).2 := by
    cases outcome with
    | ok _ => rfl
    | error _ => rfl
  have hcfull : applyEvents (run_payload n k { live := [], gen := 0 }).2.live
      (pack_cleanup (run_payload n k { live := [], gen := 0 }).2) = [] := by
    rw [pack_cleanup, applyEvents_invs_take _ _ (List.prefix_refl _),
      List.length_map, List.drop_length]
  constructor
  · intro t ht
    rw [hlc] at ht
    rcases prefix_append_cases _ _ t ht with hc | ⟨t2, rfl, ht2⟩
    · exact h1 t hc
    · rw [liveAfter, applyEvents_append, h2]
      rw [pack_cleanup] at ht2
      rw [applyEvents_invs_take _ t2 ht2]
      intro a ha b hb
      have ha' := h3 a (List.drop_subset _ _ ha)
      have hb' := h3 b (List.drop_subset _ _ hb)
      rw [ha', hb']
  · rw [hlc, liveAfter, applyEvents_append, h2, hcfull]

/-- Witness for C5 at concrete inputs: with one inner scope per generation
and two scope_fn invocations, after the initial segment that creates the
second generation only generation two is live, and after the full trace of
a raising payload no inner scope is live. -/
theorem pack_inner_scope_lifecycle_witness :
    ([ScopeEvent.create 1 0, ScopeEvent.invalidate 1 0, ScopeEvent.create 2 0]
        <+: pack_lifecycle 1 2 (Except.error ())) ∧
    OneGen (liveAfter
      [ScopeEvent.create 1 0, ScopeEvent.invalidate 1 0, ScopeEvent.create 2 0])
    ∧ liveAfter (pack_lifecycle 1 2 (Except.error ())) = [] :=
  ⟨by decide,
   (pack_inner_scope_lifecycle 1 2 (Except.error ())).1 _ (by decide),
   (pack_inner_scope_lifecycle 1 2 (Except.error ())).2⟩

theorem arenaWF_parent (a : Arena) (hwf : arenaWF a = true) :
    ∀ i p, i < a.length → parentOf a i = some p → p < i := by
  intro i p hi hp
  have h := List.all_eq_true.mp hwf i (List.mem_range.mpr hi)
  rw [hp] at h
  exact of_decide_eq_true h

theorem chainO_none (a : Arena) (fuel : Nat) : chainO a fuel none = [] := by
  cases fuel <;> rfl

theorem oaSpec_none (a : Arena) (s : List Nat) (fuel : Nat) :
    oaSpec a s fuel none = none := by
  cases fuel <;> rfl

theorem walkSpec_none (a : Arena) (mset : List Nat) (fuel : Nat)
    (path : List String) : walkSpec a mset fuel none path = none := by
  cases fuel <;> rfl

theorem chainO_congr (a : Arena) (hwf : arenaWF a = true) :
    ∀ (s f1 f2 : Nat), s < a.length → s < f1 → s < f2 →
      chainO a f1 (some s) = chainO a f2 (some s) := by
  intro s
  induction s using Nat.strong_induction_on with
  | _ s ih =>
    intro f1 f2 hs hf1 hf2
    obtain ⟨g1, rfl⟩ : ∃ g, f1 = g + 1 := ⟨f1 - 1, by omega⟩
    obtain ⟨g2, rfl⟩ : ∃ g, f2 = g + 1 := ⟨f2 - 1, by omega⟩
    simp only [chainO]
    cases hp : parentOf a s with
    | none => rw [chainO_none, chainO_none]
    | some p =>
      have hps := arenaWF_parent a hwf s p hs hp
      rw [ih p hps g1 g2 (lt_trans hps hs) (by omega) (by omega)]

theorem chainO_mem (a : Arena) (hwf : arenaWF a = true) :
    ∀ (fuel s : Nat), s < a.length → ∀ x ∈ chainO a fuel (some s),
      x ≤ s ∧ x < a.length := by
  intro fuel
  induction fuel with
  | zero =>
    intro s hs x hx
    simp [chainO] at hx
  | succ fuel ih =>
    intro s hs x hx
    simp only [chainO, List.mem_cons] at hx
    rcases hx with rfl | hx
    · exact ⟨le_refl _, hs⟩
    · cases hp : parentOf a s with
      | none =>
        rw [hp] at hx
        simp [chainO] at hx
      | some p =>
        rw [hp] at hx
        have hps := arenaWF_parent a hwf s p hs hp
        have h2 := ih p (lt_trans hps hs) x hx
        exact ⟨le_trans h2.1 (le_of_lt hps), h2.2⟩

theorem oaSpec_congr (a : Arena) (s : List Nat) (hwf : arenaWF a = true) :
    ∀ (x f1 f2 : Nat), x < a.length → x < f1 → x < f2 →
      oaSpec a s f1 (some x) = oaSpec a s f2 (some x) := by
  intro x
  induction x using Nat.strong_induction_on with
  | _ x ih =>
    intro f1 f2 hx hf1 hf2
    obtain ⟨g1, rfl⟩ : ∃ g, f1 = g + 1 := ⟨f1 - 1, by omega⟩
    obtain ⟨g2, rfl⟩ : ∃ g, f2 = g + 1 := ⟨f2 - 1, by omega⟩
    simp only [oaSpec]
    cases hp : parentOf a x with
    | none => rw [oaSpec_none, oaSpec_none]
    | some p =>
      have hps := arenaWF_parent a hwf x p hx hp
      rw [ih p hps g1 g2 (lt_trans hps hx) (by omega) (by omega)]

theorem pathBelowF_congr (a : Arena) (hwf : arenaWF a = true) :
    ∀ (i w f1 f2 : Nat), i < a.length → i < f1 → i < f2 →
      pathBelowF a f1 w i = pathBelowF a f2 w i := by
  intro i
  induction i using Nat.strong_induction_on with
  | _ i ih =>
    intro w f1 f2 hi hf1 hf2
    obtain ⟨g1, rfl⟩ : ∃ g, f1 = g + 1 := ⟨f1 - 1, by omega⟩
    obtain ⟨g2, rfl⟩ : ∃ g, f2 = g + 1 := ⟨f2 - 1, by omega⟩
    simp only [pathBelowF]
    by_cases hiw : i = w
    · rw [if_pos hiw, if_pos hiw]
    · rw [if_neg hiw, if_neg hiw]
      cases hp : parentOf a i with
      | none => rfl
      | some p =>
        have hps := arenaWF_parent a hwf i p hi hp
        show (pathBelowF a g1 w p).map (fun q => q ++ [nameOf a i]) =
          (pathBelowF a g2 w p).map (fun q => q ++ [nameOf a i])
        rw [ih p hps w g1 g2 (lt_trans hps hi) (by omega) (by omega)]

theorem pathBelow_self (a : Arena) (w : Nat) : pathBelow a w w = some [] := by
  unfold pathBelow
  cases a.length with
  | zero => simp [pathBelowF]
  | succ g => simp [pathBelowF]

theorem pathBelow_step (a : Arena) (hwf : arenaWF a = true) (t s pr : Nat)
    (hs : s < a.length) (hts : ¬ (s = t)) (hp : parentOf a s = some pr) :
    pathBelow a t s = (pathBelow a t pr).map (fun q => q ++ [nameOf a s]) := by
  have hps := arenaWF_parent a hwf s pr hs hp
  obtain ⟨g, hg⟩ : ∃ g, a.length = g + 1 := ⟨a.length - 1, by omega⟩
  unfold pathBelow
  rw [hg]
  have hred : pathBelowF a (g+1) t s =
      (pathBelowF a g t pr).map (fun q => q ++ [nameOf a s]) := by
    simp only [pathBelowF]
    rw [if_neg hts, hp]
  rw [hred, pathBelowF_congr a hwf pr t g (g+1) (by omega) (by omega) (by omega)]

theorem dedupWalk_eq_walkSpec (a : Arena) (mset : List Nat) :
    ∀ (fuel : Nat) (sc : Option Nat) (mp : Nat) (mpp path : List String),
      dedupWalk a mset fuel sc mp mpp path =
        (walkSpec a mset fuel sc path).getD (mp, mpp) := by
  intro fuel
  induction fuel with
  | zero =>
    intro sc mp mpp path
    cases sc with
    | none => rfl
    | some s => rfl
  | succ fuel ih =>
    intro sc mp mpp path
    cases sc with
    | none => rfl
    | some s =>
      by_cases hs : s ∈ mset
      · simp only [dedupWalk, walkSpec, if_pos hs, ih]
        cases hws : walkSpec a mset fuel (parentOf a s) (path ++ [nameOf a s])
          with
        | none => rfl
        | some r => rfl
      · simp only [dedupWalk, walkSpec, if_neg hs, ih]
        cases hws : walkSpec a mset fuel (parentOf a s) (path ++ [nameOf a s])
          with
        | none => rfl
        | some r => rfl

theorem walkSpec_spec (a : Arena) (mset : List Nat) (hwf : arenaWF a = true) :
    ∀ (fuel s : Nat) (path : List String), s < a.length → s < fuel →
      (walkSpec a mset fuel (some s) path = none ↔
        ∀ x ∈ chainO a fuel (some s), x ∉ mset) ∧
      (∀ t p, walkSpec a mset fuel (some s) path = some (t, p) →
        t ∈ mset ∧ t ∈ chainO a fuel (some s) ∧
        (∀ x ∈ chainO a a.length (parentOf a t), x ∉ mset) ∧
        ∃ q, pathBelow a t s = some q ∧ p = q ++ path.reverse) := by
  intro fuel
  induction fuel with
  | zero =>
    intro s path hs hf
    omega
  | succ fuel ih =>
    intro s path hs hf
    cases hp : parentOf a s with
    | none =>
      have hinner : walkSpec a mset fuel (parentOf a s)
          (path ++ [nameOf a s]) = none := by
        rw [hp, walkSpec_none]
      have hstep : walkSpec a mset (fuel+1) (some s) path =
          if s ∈ mset then some (s, path.reverse) else none := by
        simp only [walkSpec]
        rw [hinner]
      have hchain : chainO a (fuel+1) (some s) = [s] := by
        simp only [chainO]
        rw [hp, chainO_none]
      constructor
      · rw [hstep, hchain]
        constructor
        · intro hnone x hx
          rw [List.mem_singleton] at hx
          subst hx
          intro hmem
          rw [if_pos hmem] at hnone
          exact Option.noConfusion hnone
        · intro hall
          rw [if_neg (hall s (List.mem_singleton.mpr rfl))]
      · intro t p hsome
        rw [hstep] at hsome
        by_cases hmem : s ∈ mset
        · rw [if_pos hmem] at hsome
          obtain ⟨rfl, rfl⟩ : s = t ∧ path.reverse = p := by
            have h1 := congrArg (fun o => o.getD (0, [])) hsome
            simp at h1
            exact ⟨h1.1, h1.2⟩
          refine ⟨hmem, by rw [hchain]; exact List.mem_singleton.mpr rfl, ?_, ?_⟩
          · rw [hp, chainO_none]
            intro x hx
            exact absurd hx (List.not_mem_nil x)
          · exact ⟨[], pathBelow_self a s, rfl⟩
        · rw [if_neg hmem] at hsome
          exact Option.noConfusion hsome
    | some pr =>
      have hps := arenaWF_parent a hwf s pr hs hp
      have hprl : pr < a.length := lt_trans hps hs
      have hprf : pr < fuel := by omega
      obtain ⟨ihA, ihB⟩ := ih pr (path ++ [nameOf a s]) hprl hprf
      have hchain : chainO a (fuel+1) (some s) = s :: chainO a fuel (some pr) := by
        simp only [chainO]
        rw [hp]
      cases hws : walkSpec a mset fuel (some pr) (path ++ [nameOf a s]) with
      | none =>
        have hstep : walkSpec a mset (fuel+1) (some s) path =
            if s ∈ mset then some (s, path.reverse) else none := by
          simp only [walkSpec]
          rw [hp, hws]
        have htail := ihA.mp hws
        constructor
        · rw [hstep, hchain]
          constructor
          · intro hnone x hx
            rw [List.mem_cons] at hx
            rcases hx with rfl | hx
            · intro hmem
              rw [if_pos hmem] at hnone
              exact Option.noConfusion hnone
            · exact htail x hx
          · intro hall
            rw [if_neg (hall s (List.mem_cons_self s _))]
        · intro t p hsome
          rw [hstep] at hsome
          by_cases hmem : s ∈ mset
          · rw [if_pos hmem] at hsome
            obtain ⟨rfl, rfl⟩ : s = t ∧ path.reverse = p := by
              have h1 := congrArg (fun o => o.getD (0, [])) hsome
              simp at h1
              exact ⟨h1.1, h1.2⟩
            refine ⟨hmem, by rw [hchain]; exact List.mem_cons_self s _, ?_, ?_⟩
            · rw [hp, chainO_congr a hwf pr a.length fuel hprl hprl hprf]
              exact htail
            · exact ⟨[], pathBelow_self a s, rfl⟩
          · rw [if_neg hmem] at hsome
            exact Option.noConfusion hsome
      | some r =>
        have hstep : walkSpec a mset (fuel+1) (some s) path = some r := by
          simp only [walkSpec]
          rw [hp, hws]
        obtain ⟨t0, p0⟩ := r
        obtain ⟨hm, hc, habove, q, hq, hpq⟩ := ihB t0 p0 hws
        have hts : t0 ≤ pr := ((chainO_mem a hwf fuel pr hprl) t0 hc).1
        constructor
        · constructor
          · intro hnone
            rw [hstep] at hnone
            exact Option.noConfusion hnone
          · intro hall
            exact absurd hm (hall t0 (by rw [hchain]; exact List.mem_cons_of_mem s hc))
        · intro t p hsome
          rw [hstep] at hsome
          obtain ⟨rfl, rfl⟩ : t0 = t ∧ p0 = p := by
            have h1 := congrArg (fun o => o.getD (0, [])) hsome
            simp at h1
            exact ⟨h1.1, h1.2⟩
          refine ⟨hm, by rw [hchain]; exact List.mem_cons_of_mem s hc, habove,
            q ++ [nameOf a s], ?_, ?_⟩
          · rw [pathBelow_step a hwf t0 s pr hs (by omega) hp, hq]
            rfl
          · rw [hpq, List.reverse_append, List.reverse_singleton]
            simp [List.append_assoc]

theorem oaSpec_spec (a : Arena) (S : List Nat) :
    ∀ (fuel : Nat) (sc : Option Nat),
      (oaSpec a S fuel sc = none ↔ ∀ x ∈ chainO a fuel sc, x ∉ S) ∧
      (∀ t, oaSpec a S fuel sc = some t → t ∈ S ∧ t ∈ chainO a fuel sc) := by
  intro fuel
  induction fuel with
  | zero =>
    intro sc
    cases sc with
    | none => simp [oaSpec, chainO]
    | some s => simp [oaSpec, chainO]
  | succ fuel ih =>
    intro sc
    cases sc with
    | none => simp [oaSpec_none, chainO_none]
    | some s =>
      obtain ⟨ih1, ih2⟩ := ih (parentOf a s)
      cases hin : oaSpec a S fuel (parentOf a s) with
      | some r =>
        have hstep : oaSpec a S (fuel+1) (some s) = some r := by
          simp only [oaSpec]
          rw [hin]
        obtain ⟨hrS, hrc⟩ := ih2 r hin
        constructor
        · constructor
          · intro hnone
            rw [hstep] at hnone
            exact Option.noConfusion hnone
          · intro hall
            exact absurd hrS
              (hall r (by simp only [chainO]; exact List.mem_cons_of_mem s hrc))
        · intro t ht
          rw [hstep] at ht
          obtain rfl : r = t := Option.some.inj ht
          exact ⟨hrS, by simp only [chainO]; exact List.mem_cons_of_mem s hrc⟩
      | none =>
        have hstep : oaSpec a S (fuel+1) (some s) =
            if s ∈ S then some s else none := by
          simp only [oaSpec]
          rw [hin]
        have htail := ih1.mp hin
        constructor
        · rw [hstep]
          constructor
          · intro hnone x hx
            simp only [chainO, List.mem_cons] at hx
            rcases hx with rfl | hx
            · intro hmem
              rw [if_pos hmem] at hnone
              exact Option.noConfusion hnone
            · exact htail x hx
          · intro hall
            rw [if_neg (hall s (by simp only [chainO]; exact List.mem_cons_self s _))]
        · intro t ht
          rw [hstep] at ht
          by_cases hmem : s ∈ S
          · rw [if_pos hmem] at ht
            obtain rfl : s = t := Option.some.inj ht
            exact ⟨hmem, by simp only [chainO]; exact List.mem_cons_self s _⟩
          · rw [if_neg hmem] at ht
            exact Option.noConfusion ht

theorem oa_walk_agree (a : Arena) (mset scopes : List Nat)
    (hwf : arenaWF a = true)
    (hsub : ∀ x ∈ mset, x ∈ scopes)
    (hroots : ∀ x, x < a.length → x ∈ scopes →
      oaSpec a scopes a.length (parentOf a x) = none → x ∈ mset) :
    ∀ (fuel s : Nat) (path : List String), s < a.length → s < fuel →
      ((walkSpec a mset fuel (some s) path = none ↔
        oaSpec a scopes fuel (some s) = none) ∧
       (∀ t p, walkSpec a mset fuel (some s) path = some (t, p) →
          oaSpec a scopes fuel (some s) = some t)) := by
  intro fuel
  induction fuel with
  | zero =>
    intro s path hs hf
    omega
  | succ fuel ih =>
    intro s path hs hf
    cases hp : parentOf a s with
    | none =>
      have hwnone : walkSpec a mset fuel (parentOf a s)
          (path ++ [nameOf a s]) = none := by rw [hp, walkSpec_none]
      have honone : oaSpec a scopes fuel (parentOf a s) = none := by
        rw [hp, oaSpec_none]
      have hws : walkSpec a mset (fuel+1) (some s) path =
          if s ∈ mset then some (s, path.reverse) else none := by
        simp only [walkSpec]
        rw [hwnone]
      have hos : oaSpec a scopes (fuel+1) (some s) =
          if s ∈ scopes then some s else none := by
        simp only [oaSpec]
        rw [honone]
      have hiff : s ∈ mset ↔ s ∈ scopes := by
        constructor
        · exact hsub s
        · intro hsc
          exact hroots s hs hsc (by rw [hp, oaSpec_none])
      constructor
      · rw [hws, hos]
        by_cases hmem : s ∈ mset
        · rw [if_pos hmem, if_pos (hiff.mp hmem)]
          simp
        · rw [if_neg hmem, if_neg (fun hsc => hmem (hiff.mpr hsc))]
          simp
      · intro t p ht
        rw [hws] at ht
        by_cases hmem : s ∈ mset
        · rw [if_pos hmem] at ht
          have h1 : s = t := congrArg (fun o => (o.getD (0, [])).1) ht
          subst h1
          rw [hos, if_pos (hiff.mp hmem)]
        · rw [if_neg hmem] at ht
          exact Option.noConfusion ht
    | some pr =>
      have hps := arenaWF_parent a hwf s pr hs hp
      have hprl : pr < a.length := lt_trans hps hs
      have hprf : pr < fuel := by omega
      obtain ⟨ihA, ihB⟩ := ih pr (path ++ [nameOf a s]) hprl hprf
      cases hwin : walkSpec a mset fuel (some pr) (path ++ [nameOf a s]) with
      | some r =>
        obtain ⟨t0, p0⟩ := r
        have hoin : oaSpec a scopes fuel (some pr) = some t0 := ihB t0 p0 hwin
        have hws : walkSpec a mset (fuel+1) (some s) path = some (t0, p0) := by
          simp only [walkSpec]
          rw [hp, hwin]
        have hos : oaSpec a scopes (fuel+1) (some s) = some t0 := by
          simp only [oaSpec]
          rw [hp, hoin]
        constructor
        · rw [hws, hos]
          simp
        · intro t p ht
          rw [hws] at ht
          have h1 : t0 = t := congrArg (fun o => (o.getD (0, [])).1) ht
          subst h1
          exact hos
      | none =>
        have hoin : oaSpec a scopes fuel (some pr) = none := ihA.mp hwin
        have hws : walkSpec a mset (fuel+1) (some s) path =
            if s ∈ mset then some (s, path.reverse) else none := by
          simp only [walkSpec]
          rw [hp, hwin]
        have hos : oaSpec a scopes (fuel+1) (some s) =
            if s ∈ scopes then some s else none := by
          simp only [oaSpec]
          rw [hp, hoin]
        have hiff : s ∈ mset ↔ s ∈ scopes := by
          constructor
          · exact hsub s
          · intro hsc
            refine hroots s hs hsc ?_
            rw [hp, oaSpec_congr a scopes hwf pr a.length fuel hprl hprl hprf]
            exact hoin
        constructor
        · rw [hws, hos]
          by_cases hmem : s ∈ mset
          · rw [if_pos hmem, if_pos (hiff.mp hmem)]
            simp
          · rw [if_neg hmem, if_neg (fun hsc => hmem (hiff.mpr hsc))]
            simp
        · intro t p ht
          rw [hws] at ht
          by_cases hmem : s ∈ mset
          · rw [if_pos hmem] at ht
            have h1 : s = t := congrArg (fun o => (o.getD (0, [])).1) ht
            subst h1
            rw [hos, if_pos (hiff.mp hmem)]
          · rw [if_neg hmem] at ht
            exact Option.noConfusion ht

theorem ordNubAux_mem : ∀ (l seen : List Nat) (x : Nat),
    x ∈ ordNubAux seen l ↔ x ∈ l ∧ x ∉ seen := by
  intro l
  induction l with
  | nil =>
    intro seen x
    simp [ordNubAux]
  | cons y rest ih =>
    intro seen x
    simp only [ordNubAux]
    by_cases hy : y ∈ seen
    · rw [if_pos hy, ih seen x]
      constructor
      · intro h
        exact ⟨List.mem_cons_of_mem y h.1, h.2⟩
      · intro h
        refine ⟨?_, h.2⟩
        rcases List.mem_cons.mp h.1 with rfl | h1
        · exact absurd hy h.2
        · exact h1
    · rw [if_neg hy]
      constructor
      · intro h
        rcases List.mem_cons.mp h with rfl | h1
        · exact ⟨List.mem_cons_self x rest, hy⟩
        · obtain ⟨hm, hns⟩ := (ih (y :: seen) x).mp h1
          exact ⟨List.mem_cons_of_mem y hm,
            fun hs => hns (List.mem_cons_of_mem y hs)⟩
      · intro h
        obtain ⟨hm, hns⟩ := h
        by_cases hxy : x = y
        · exact hxy ▸ List.mem_cons_self y _
        · apply List.mem_cons_of_mem
          rw [ih (y :: seen) x]
          refine ⟨?_, ?_⟩
          · rcases List.mem_cons.mp hm with h1 | h1
            · exact absurd h1 hxy
            · exact h1
          · intro hs
            rcases List.mem_cons.mp hs with h1 | h1
            · exact hxy h1
            · exact hns h1

theorem ordNub_mem (l : List Nat) (x : Nat) : x ∈ ordNub l ↔ x ∈ l := by
  unfold ordNub
  rw [ordNubAux_mem]
  simp

theorem ordNubAux_nodup : ∀ (l seen : List Nat), (ordNubAux seen l).Nodup := by
  intro l
  induction l with
  | nil =>
    intro seen
    exact List.nodup_nil
  | cons y rest ih =>
    intro seen
    simp only [ordNubAux]
    by_cases hy : y ∈ seen
    · rw [if_pos hy]
      exact ih seen
    · rw [if_neg hy]
      refine List.nodup_cons.mpr ⟨?_, ih (y :: seen)⟩
      intro hmem
      exact ((ordNubAux_mem rest (y :: seen) y).mp hmem).2 (List.mem_cons_self y seen)

theorem ordNub_nodup (l : List Nat) : (ordNub l).Nodup := ordNubAux_nodup l []

theorem hasAncB_eq (a : Arena) (scopes : List Nat) (x : Nat) :
    hasAncB a scopes x = hasProperAncestorIn a scopes x := by
  unfold hasAncB hasProperAncestorIn ancestorsOf
  obtain ⟨h1, h2⟩ := oaSpec_spec a scopes a.length (parentOf a x)
  cases ho : oaSpec a scopes a.length (parentOf a x) with
  | none =>
    have hall := h1.mp ho
    simp only [Option.isSome_none]
    symm
    rw [List.any_eq_false]
    intro y hy
    simpa using hall y hy
  | some t =>
    obtain ⟨htS, htc⟩ := h2 t ho
    simp only [Option.isSome_some]
    symm
    rw [List.any_eq_true]
    exact ⟨t, htc, by simpa using htS⟩

theorem msetOf_nil (a : Arena) (scopes : List Nat) :
    msetOf a scopes [] = ordNub scopes := by
  unfold msetOf
  simp

theorem filter_erase_of_nodup : ∀ (l : List Nat), l.Nodup →
    ∀ (f : Nat → Bool) (x : Nat),
      (l.filter f).erase x = l.filter (fun y => f y && !(decide (y = x))) := by
  intro l
  induction l with
  | nil =>
    intro _ f x
    rfl
  | cons y rest ih =>
    intro hnd f x
    rw [List.nodup_cons] at hnd
    obtain ⟨hy, hrest⟩ := hnd
    by_cases hf : f y
    · rw [List.filter_cons_of_pos hf]
      by_cases hyx : y = x
      · subst hyx
        rw [List.erase_cons_head,
          List.filter_cons_of_neg (by simp)]
        apply List.filter_congr
        intro z hz
        have hzy : ¬ (z = y) := fun h => hy (h ▸ hz)
        simp [hzy]
      · rw [List.erase_cons_tail (by simpa using hyx),
          List.filter_cons_of_pos (by simp [hf, hyx]), ih hrest f x]
    · rw [List.filter_cons_of_neg (by simp [hf]),
        List.filter_cons_of_neg (by simp [hf]), ih hrest f x]

theorem dedupWalk_result (a : Arena) (mset scopes : List Nat)
    (hwf : arenaWF a = true)
    (hsub : ∀ x ∈ mset, x ∈ scopes)
    (hroots : ∀ x, x < a.length → x ∈ scopes →
      oaSpec a scopes a.length (parentOf a x) = none → x ∈ mset)
    (leaf : Nat) (hleaf : leaf < a.length) :
    ∃ q, pathBelow a (outermostAncestorIn a scopes leaf) leaf = some q ∧
      dedupWalk a mset a.length (parentOf a leaf) leaf [] [nameOf a leaf]
        = (outermostAncestorIn a scopes leaf, q) ∧
      (outermostAncestorIn a scopes leaf = leaf ↔
        hasAncB a scopes leaf = false) := by
  rw [dedupWalk_eq_walkSpec]
  unfold outermostAncestorIn hasAncB
  cases hp : parentOf a leaf with
  | none =>
    rw [walkSpec_none, oaSpec_none]
    exact ⟨[], pathBelow_self a leaf, rfl, by simp⟩
  | some pr =>
    have hps := arenaWF_parent a hwf leaf pr hleaf hp
    have hprl : pr < a.length := lt_trans hps hleaf
    obtain ⟨wA, wB⟩ :=
      walkSpec_spec a mset hwf a.length pr [nameOf a leaf] hprl hprl
    obtain ⟨agA, agB⟩ :=
      oa_walk_agree a mset scopes hwf hsub hroots a.length pr
        [nameOf a leaf] hprl hprl
    cases hws : walkSpec a mset a.length (some pr) [nameOf a leaf] with
    | none =>
      have ho : oaSpec a scopes a.length (some pr) = none := agA.mp hws
      rw [ho]
      exact ⟨[], pathBelow_self a leaf, rfl, by simp⟩
    | some r =>
      obtain ⟨t, p⟩ := r
      have ho : oaSpec a scopes a.length (some pr) = some t := agB t p hws
      obtain ⟨hm, hc, habove, q0, hq0, hpq⟩ := wB t p hws
      rw [ho]
      have hts : t ≤ pr := (chainO_mem a hwf a.length pr hprl t hc).1
      have hpath : pathBelow a t leaf = some (q0 ++ [nameOf a leaf]) := by
        rw [pathBelow_step a hwf t leaf pr hleaf (by omega) hp, hq0]
        rfl
      refine ⟨q0 ++ [nameOf a leaf], ?_, ?_, ?_⟩
      · simpa using hpath
      · have hpe : p = q0 ++ [nameOf a leaf] := by
          rw [hpq]
          rfl
        simp [hpe]
      · constructor
        · intro h
          simp at h
          omega
        · intro h
          simp at h

theorem msetOf_snoc (a : Arena) (scopes processed : List Nat) (leaf : Nat) :
    msetOf a scopes (processed ++ [leaf]) =
      if hasAncB a scopes leaf then (msetOf a scopes processed).erase leaf
      else msetOf a scopes processed := by
  by_cases hA : hasAncB a scopes leaf
  · rw [if_pos hA, msetOf, msetOf,
      filter_erase_of_nodup (ordNub scopes) (ordNub_nodup scopes) _ leaf]
    apply List.filter_congr
    intro y _
    by_cases hyl : y = leaf
    · subst hyl
      simp [hA, List.mem_append]
    · simp [hyl, List.mem_append]
  · have hAf : hasAncB a scopes leaf = false := Bool.eq_false_iff.mpr hA
    rw [if_neg hA, msetOf, msetOf]
    apply List.filter_congr
    intro y _
    by_cases hyl : y = leaf
    · subst hyl
      simp [hAf, List.mem_append]
    · simp [hyl, List.mem_append]

theorem dedupLoop_spec (a : Arena) (scopes : List Nat)
    (hwf : arenaWF a = true) (hin : ∀ i ∈ scopes, i < a.length) :
    ∀ (rest processed : List Nat) (paths0 : List (Nat × List String)),
      processed ++ rest = scopes →
      (∀ l ∈ rest, hasAncB a scopes l = true →
        l ∉ processed ∧ rest.count l ≤ 1) →
      dedupLoop a rest (msetOf a scopes processed) paths0 =
        .ok (msetOf a scopes (processed ++ rest),
         paths0 ++ rest.map (fun leaf =>
           (outermostAncestorIn a scopes leaf,
            (pathBelow a (outermostAncestorIn a scopes leaf) leaf).getD []))) := by
  intro rest
  induction rest with
  | nil =>
    intro processed paths0 _ _
    simp [dedupLoop]
  | cons leaf rest ih =>
    intro processed paths0 hpr hdup
    have hleafmem : leaf ∈ scopes := by
      rw [← hpr]
      exact List.mem_append_right processed (List.mem_cons_self leaf rest)
    have hleaf : leaf < a.length := hin leaf hleafmem
    have hsub : ∀ x ∈ msetOf a scopes processed, x ∈ scopes := by
      intro x hx
      rw [msetOf, List.mem_filter] at hx
      exact (ordNub_mem scopes x).mp hx.1
    have hroots : ∀ x, x < a.length → x ∈ scopes →
        oaSpec a scopes a.length (parentOf a x) = none →
        x ∈ msetOf a scopes processed := by
      intro x _ hxs ho
      rw [msetOf, List.mem_filter]
      refine ⟨(ordNub_mem scopes x).mpr hxs, ?_⟩
      simp [hasAncB, ho]
    obtain ⟨q, hq, hwalk, hiff⟩ :=
      dedupWalk_result a (msetOf a scopes processed) scopes hwf hsub hroots
        leaf hleaf
    have hstep : dedupLoop a (leaf :: rest) (msetOf a scopes processed) paths0 =
        (if (outermostAncestorIn a scopes leaf) ≠ leaf then
          (if leaf ∈ msetOf a scopes processed then
            dedupLoop a rest ((msetOf a scopes processed).erase leaf)
              (paths0 ++ [(outermostAncestorIn a scopes leaf, q)])
          else .error "KeyError")
        else dedupLoop a rest (msetOf a scopes processed)
          (paths0 ++ [(outermostAncestorIn a scopes leaf, q)])) := by
      show (if (dedupWalk a (msetOf a scopes processed) a.length
            (parentOf a leaf) leaf [] [nameOf a leaf]).1 ≠ leaf then
          (if leaf ∈ msetOf a scopes processed then
            dedupLoop a rest ((msetOf a scopes processed).erase leaf)
              (paths0 ++ [dedupWalk a (msetOf a scopes processed) a.length
                (parentOf a leaf) leaf [] [nameOf a leaf]])
          else .error "KeyError")
        else dedupLoop a rest (msetOf a scopes processed)
          (paths0 ++ [dedupWalk a (msetOf a scopes processed) a.length
            (parentOf a leaf) leaf [] [nameOf a leaf]])) = _
      rw [hwalk]
    have hstep2 : dedupLoop a (leaf :: rest) (msetOf a scopes processed) paths0 =
        dedupLoop a rest (msetOf a scopes (processed ++ [leaf]))
          (paths0 ++ [(outermostAncestorIn a scopes leaf, q)]) := by
      rw [hstep]
      by_cases hA : hasAncB a scopes leaf
      · have hoa : (outermostAncestorIn a scopes leaf) ≠ leaf := by
          intro hw
          rw [hiff.mp hw] at hA
          exact Bool.noConfusion hA
        have hnp : leaf ∉ processed :=
          (hdup leaf (List.mem_cons_self leaf rest) hA).1
        have hmem : leaf ∈ msetOf a scopes processed := by
          rw [msetOf, List.mem_filter]
          exact ⟨(ordNub_mem scopes leaf).mpr hleafmem, by simp [hnp]⟩
        rw [if_pos hoa, if_pos hmem, msetOf_snoc, if_pos hA]
      · have hAf : hasAncB a scopes leaf = false := Bool.eq_false_iff.mpr hA
        have hoa : ¬ ((outermostAncestorIn a scopes leaf) ≠ leaf) := by
          intro hw
          exact hw (hiff.mpr hAf)
        rw [if_neg hoa, msetOf_snoc, if_neg hA]
    have hdup2 : ∀ l ∈ rest, hasAncB a scopes l = true →
        l ∉ processed ++ [leaf] ∧ rest.count l ≤ 1 := by
      intro l hl hAl
      obtain ⟨hnp, hcnt⟩ := hdup l (List.mem_cons_of_mem leaf hl) hAl
      constructor
      · rw [List.mem_append, List.mem_singleton]
        rintro (h | h)
        · exact hnp h
        · subst h
          rw [List.count_cons_self] at hcnt
          have h0 : rest.count l = 0 := by omega
          exact List.count_eq_zero.mp h0 hl
      · by_cases hll : l = leaf
        · subst hll
          rw [List.count_cons_self] at hcnt
          omega
        · rw [List.count_cons_of_ne hll] at hcnt
          exact hcnt
    rw [hstep2, ih (processed ++ [leaf])
      (paths0 ++ [(outermostAncestorIn a scopes leaf, q)])
      (by rw [List.append_assoc, List.singleton_append]; exact hpr) hdup2]
    simp [List.append_assoc, hq]

/-- C4 (corrected): when no input handle having a proper ancestor also
present in the input occurs more than once, _dedup_scopes returns the pair
of the root list, exactly the input handles without a proper input ancestor
as first occurrences in insertion order, and of the path list pairing every
input handle, in input order, with its outermost input ancestor and the
child name path from that root down to the handle; when such a handle is
duplicated, the unguarded deletion of lift.py line 56 raises KeyError
instead of returning, refuting the claim over all handle lists. -/
theorem dedup_scopes_correct (a : Arena) (scopes : List Nat)
    (hwf : arenaWF a = true) (hin : ∀ i ∈ scopes, i < a.length)
    (hdup : ∀ l ∈ scopes, hasAncB a scopes l = true → scopes.count l ≤ 1) :
    (_dedup_scopes a scopes = .ok
      ((ordNub scopes).filter (fun x => !(hasProperAncestorIn a scopes x)),
       scopes.map (fun leaf =>
         (outermostAncestorIn a scopes leaf,
          (pathBelow a (outermostAncestorIn a scopes leaf) leaf).getD [])))) ∧
    (∀ leaf ∈ scopes,
      ¬ (pathBelow a (outermostAncestorIn a scopes leaf) leaf = none)) ∧
    (∀ leaf ∈ scopes,
      (outermostAncestorIn a scopes leaf = leaf ∧
        hasProperAncestorIn a scopes leaf = false) ∨
      (outermostAncestorIn a scopes leaf ∈ ancestorsOf a leaf ∧
       outermostAncestorIn a scopes leaf ∈ scopes ∧
       (∀ x ∈ ancestorsOf a (outermostAncestorIn a scopes leaf),
         x ∉ scopes))) := by
  have hloop := dedupLoop_spec a scopes hwf hin scopes [] [] rfl
    (fun l hl hA => ⟨by simp, hdup l hl hA⟩)
  have hdd : _dedup_scopes a scopes = .ok
      (msetOf a scopes ([] ++ scopes),
       [] ++ scopes.map (fun leaf =>
         (outermostAncestorIn a scopes leaf,
          (pathBelow a (outermostAncestorIn a scopes leaf) leaf).getD []))) := by
    rw [_dedup_scopes, ← msetOf_nil a scopes]
    exact hloop
  refine ⟨?_, ?_, ?_⟩
  · rw [hdd]
    have hroots : msetOf a scopes ([] ++ scopes) =
        (ordNub scopes).filter (fun x => !(hasProperAncestorIn a scopes x)) := by
      rw [msetOf]
      apply List.filter_congr
      intro y hy
      have hys : y ∈ scopes := (ordNub_mem scopes y).mp hy
      simp [hys, hasAncB_eq]
    rw [hroots]
    rfl
  · intro leaf hleaf
    obtain ⟨q, hq, _, _⟩ :=
      dedupWalk_result a (ordNub scopes) scopes hwf
        (fun x hx => (ordNub_mem scopes x).mp hx)
        (fun x _ hxs _ => (ordNub_mem scopes x).mpr hxs)
        leaf (hin leaf hleaf)
    rw [hq]
    exact Option.noConfusion
  · intro leaf hleaf
    have hleafl : leaf < a.length := hin leaf hleaf
    unfold outermostAncestorIn
    cases ho : oaSpec a scopes a.length (parentOf a leaf) with
    | none =>
      left
      refine ⟨rfl, ?_⟩
      rw [← hasAncB_eq]
      simp [hasAncB, ho]
    | some t =>
      right
      obtain ⟨_, h2⟩ := oaSpec_spec a scopes a.length (parentOf a leaf)
      obtain ⟨htS, htc⟩ := h2 t ho
      cases hp : parentOf a leaf with
      | none =>
        rw [hp, oaSpec_none] at ho
        exact Option.noConfusion ho
      | some pr =>
        have hps := arenaWF_parent a hwf leaf pr hleafl hp
        have hprl : pr < a.length := lt_trans hps hleafl
        obtain ⟨agA, agB⟩ :=
          oa_walk_agree a scopes scopes hwf (fun x hx => hx)
            (fun x _ hxs _ => hxs) a.length pr [nameOf a leaf] hprl hprl
        rw [hp] at ho
        cases hws : walkSpec a scopes a.length (some pr) [nameOf a leaf] with
        | none =>
          rw [agA.mp hws] at ho
          exact Option.noConfusion ho
        | some r =>
          obtain ⟨t0, p0⟩ := r
          have ht0 : t0 = t := by
            have := agB t0 p0 hws
            rw [this] at ho
            exact Option.some.inj ho
          obtain ⟨_, _, habove, _, _, _⟩ :=
            (walkSpec_spec a scopes hwf a.length pr [nameOf a leaf]
              hprl hprl).2 t0 p0 hws
          subst ht0
          refine ⟨?_, htS, ?_⟩
          · show t0 ∈ chainO a a.length (parentOf a leaf)
            exact htc
          · intro x hx
            exact habove x hx

/-- Witness for C4 at a concrete input: the handle list holding the
grandchild then the child has no duplicated descendant, the child is the
only root and both recorded paths hang off it. -/
theorem dedup_scopes_correct_witness :
    arenaWF demoArena = true ∧ (∀ i ∈ [2, 1], i < demoArena.length) ∧
    (∀ l ∈ [2, 1], hasAncB demoArena [2, 1] l = true →
      ([2, 1] : List Nat).count l ≤ 1) ∧
    (_dedup_scopes demoArena [2, 1] = .ok
      ((ordNub [2, 1]).filter
        (fun x => !(hasProperAncestorIn demoArena [2, 1] x)),
       [2, 1].map (fun leaf =>
         (outermostAncestorIn demoArena [2, 1] leaf,
          (pathBelow demoArena
            (outermostAncestorIn demoArena [2, 1] leaf) leaf).getD [])))) :=
  ⟨by decide, by decide, by decide,
   (dedup_scopes_correct demoArena [2, 1] (by decide) (by decide)
     (by decide)).1⟩

/-- Counterexample to C4 as stated: on the handle list holding the root and
then its child twice, the arena is well formed and every handle is in
range, yet _dedup_scopes returns no root and path decomposition at all: the
second occurrence of the child, whose ancestor is present in the input,
deletes an already removed key and raises KeyError (lift.py line 56). -/
theorem dedup_scopes_keyerror :
    arenaWF demoArena = true ∧ (∀ i ∈ [0, 1, 1], i < demoArena.length) ∧
    _dedup_scopes demoArena [0, 1, 1] = .error "KeyError" :=
  ⟨by decide, by decide, rfl⟩

theorem parentOf_append (b tail : Arena) (i : Nat) (hi : i < b.length) :
    parentOf (b ++ tail) i = parentOf b i := by
  unfold parentOf
  rw [List.getD_append _ _ _ _ hi]

theorem nameOf_append (b tail : Arena) (i : Nat) (hi : i < b.length) :
    nameOf (b ++ tail) i = nameOf b i := by
  unfold nameOf
  rw [List.getD_append _ _ _ _ hi]

theorem findFrom_none (b : Arena) (p : Nat) (nm : String) :
    ∀ (fuel i : Nat), findFrom b p nm i fuel = none →
      ∀ j, i ≤ j → j < i + fuel →
        ¬ (parentOf b j = some p ∧ nameOf b j = nm) := by
  intro fuel
  induction fuel with
  | zero =>
    intro i _ j h1 h2
    omega
  | succ fuel ih =>
    intro i hf j h1 h2
    simp only [findFrom] at hf
    by_cases hm : parentOf b i = some p ∧ nameOf b i = nm
    · rw [if_pos hm] at hf
      exact Option.noConfusion hf
    · rw [if_neg hm] at hf
      by_cases hij : j = i
      · subst hij
        exact hm
      · exact ih (i+1) hf j (by omega) (by omega)

theorem findFrom_some (b : Arena) (p : Nat) (nm : String) :
    ∀ (fuel i c : Nat), findFrom b p nm i fuel = some c →
      i ≤ c ∧ c < i + fuel ∧
      (parentOf b c = some p ∧ nameOf b c = nm) ∧
      (∀ j, i ≤ j → j < c → ¬ (parentOf b j = some p ∧ nameOf b j = nm)) := by
  intro fuel
  induction fuel with
  | zero =>
    intro i c h
    exact Option.noConfusion h
  | succ fuel ih =>
    intro i c h
    simp only [findFrom] at h
    by_cases hm : parentOf b i = some p ∧ nameOf b i = nm
    · rw [if_pos hm] at h
      obtain rfl : i = c := Option.some.inj h
      exact ⟨le_refl i, by omega, hm, fun j h1 h2 => by omega⟩
    · rw [if_neg hm] at h
      obtain ⟨h1, h2, h3, h4⟩ := ih (i+1) c h
      refine ⟨by omega, by omega, h3, ?_⟩
      intro j hj1 hj2
      by_cases hij : j = i
      · subst hij
        exact hm
      · exact h4 j (by omega) hj2

theorem findFrom_first (b : Arena) (p : Nat) (nm : String) :
    ∀ (fuel i c : Nat), i ≤ c → c < i + fuel →
      (parentOf b c = some p ∧ nameOf b c = nm) →
      (∀ j, i ≤ j → j < c → ¬ (parentOf b j = some p ∧ nameOf b j = nm)) →
      findFrom b p nm i fuel = some c := by
  intro fuel
  induction fuel with
  | zero =>
    intro i c h1 h2
    omega
  | succ fuel ih =>
    intro i c h1 h2 hc hfirst
    simp only [findFrom]
    by_cases hm : parentOf b i = some p ∧ nameOf b i = nm
    · rw [if_pos hm]
      by_cases hic : i = c
      · rw [hic]
      · exact absurd hm (hfirst i (le_refl i) (by omega))
    · rw [if_neg hm]
      have hic : ¬ (i = c) := fun h => hm (h ▸ hc)
      exact ih (i+1) c (by omega) (by omega) hc
        (fun j hj1 hj2 => hfirst j (by omega) hj2)

theorem findChild_some (b : Arena) (p : Nat) (nm : String) (c : Nat)
    (h : findChild b p nm = some c) :
    c < b.length ∧ parentOf b c = some p ∧ nameOf b c = nm := by
  obtain ⟨_, h2, h3, _⟩ := findFrom_some b p nm b.length 0 c h
  exact ⟨by omega, h3⟩

theorem findChild_mono (b tail : Arena) (p : Nat) (nm : String) (c : Nat)
    (h : findChild b p nm = some c) :
    findChild (b ++ tail) p nm = some c := by
  obtain ⟨_, hlen, ⟨hcp, hcn⟩, hfirst⟩ := findFrom_some b p nm b.length 0 c h
  have hcl : c < b.length := by omega
  apply findFrom_first (b ++ tail) p nm (b ++ tail).length 0 c (by omega)
    (by rw [List.length_append]; omega)
  · rw [parentOf_append b tail c hcl, nameOf_append b tail c hcl]
    exact ⟨hcp, hcn⟩
  · intro j hj1 hj2
    have hjl : j < b.length := by omega
    rw [parentOf_append b tail j hjl, nameOf_append b tail j hjl]
    exact hfirst j hj1 hj2

theorem findChild_exists (b : Arena) (p : Nat) (nm : String) (c0 : Nat)
    (hc0 : c0 < b.length) (hm : parentOf b c0 = some p ∧ nameOf b c0 = nm) :
    ∃ c, findChild b p nm = some c ∧
      c < b.length ∧ parentOf b c = some p ∧ nameOf b c = nm := by
  cases hf : findChild b p nm with
  | none =>
    exact absurd hm (findFrom_none b p nm b.length 0 hf c0 (by omega) (by omega))
  | some c =>
    exact ⟨c, rfl, findChild_some b p nm c hf⟩

theorem getD_concat_length (l : List ScopeNode) (x d : ScopeNode) :
    (l ++ [x]).getD l.length d = x := by
  rw [List.getD_eq_getElem?_getD, List.getElem?_append_right (le_refl _)]
  simp

theorem push_cases (b : Arena) (p : Nat) (nm : String) :
    (push b p nm).1 = b ∨ (push b p nm).1 = b ++ [⟨nm, some p⟩] := by
  unfold push
  cases findChild b p nm with
  | some c => exact Or.inl rfl
  | none => exact Or.inr rfl

theorem push_ext (b : Arena) (p : Nat) (nm : String) :
    ∃ tail, (push b p nm).1 = b ++ tail := by
  rcases push_cases b p nm with h | h
  · exact ⟨[], by rw [h, List.append_nil]⟩
  · exact ⟨[⟨nm, some p⟩], h⟩

theorem push_found (b : Arena) (p : Nat) (nm : String) :
    findChild (push b p nm).1 p nm = some (push b p nm).2 := by
  unfold push
  cases hf : findChild b p nm with
  | some c => exact hf
  | none =>
    show findChild (b ++ [⟨nm, some p⟩]) p nm = some b.length
    have hpar : parentOf (b ++ [⟨nm, some p⟩]) b.length = some p := by
      unfold parentOf
      rw [getD_concat_length]
    have hnm : nameOf (b ++ [⟨nm, some p⟩]) b.length = nm := by
      unfold nameOf
      rw [getD_concat_length]
    apply findFrom_first _ p nm _ 0 b.length (by omega)
      (by rw [List.length_append]; simp)
    · exact ⟨hpar, hnm⟩
    · intro j _ hj2
      rw [parentOf_append b _ j hj2, nameOf_append b _ j hj2]
      exact findFrom_none b p nm b.length 0 hf j (by omega) (by omega)

theorem push_lt (b : Arena) (p : Nat) (nm : String) :
    (push b p nm).2 < (push b p nm).1.length ∧
      b.length ≤ (push b p nm).1.length := by
  unfold push
  cases hf : findChild b p nm with
  | some c =>
    have := (findChild_some b p nm c hf).1
    exact ⟨this, le_refl _⟩
  | none =>
    constructor
    · show b.length < (b ++ [(⟨nm, some p⟩ : ScopeNode)]).length
      rw [List.length_append]
      simp
    · show b.length ≤ (b ++ [(⟨nm, some p⟩ : ScopeNode)]).length
      rw [List.length_append]
      omega

theorem arenaWF_append_one (b : Arena) (nm : String) (p : Nat)
    (hwf : arenaWF b = true) (hp : p < b.length) :
    arenaWF (b ++ [⟨nm, some p⟩]) = true := by
  rw [arenaWF, List.all_eq_true]
  intro i hi
  rw [List.mem_range, List.length_append] at hi
  simp only [List.length_singleton] at hi
  by_cases hib : i < b.length
  · rw [parentOf_append b _ i hib]
    have := List.all_eq_true.mp hwf i (List.mem_range.mpr hib)
    exact this
  · have hieq : i = b.length := by omega
    subst hieq
    have : parentOf (b ++ [⟨nm, some p⟩]) b.length = some p := by
      unfold parentOf
      rw [getD_concat_length]
    rw [this]
    simpa using hp

theorem push_wf (b : Arena) (p : Nat) (nm : String)
    (hwf : arenaWF b = true) (hp : p < b.length) :
    arenaWF (push b p nm).1 = true := by
  rcases push_cases b p nm with h | h
  · rw [h]
    exact hwf
  · rw [h]
    exact arenaWF_append_one b nm p hwf hp

theorem descend_cons (b : Arena) (s : Nat) (nm : String) (rest : List String) :
    descend b s (nm :: rest) =
      match findChild b s nm with
      | some c => descend b c rest
      | none => none := rfl

theorem descend_mono (b tail : Arena) : ∀ (p : List String) (s c : Nat),
    descend b s p = some c → descend (b ++ tail) s p = some c := by
  intro p
  induction p with
  | nil =>
    intro s c h
    exact h
  | cons nm rest ih =>
    intro s c h
    cases hf : findChild b s nm with
    | none =>
      rw [descend_cons, hf] at h
      exact Option.noConfusion h
    | some c1 =>
      rw [descend_cons, hf] at h
      rw [descend_cons, findChild_mono b tail s nm c1 hf]
      exact ih c1 c h

theorem descend_append (b : Arena) : ∀ (p q : List String) (s : Nat),
    descend b s (p ++ q) = (descend b s p).bind (fun m => descend b m q) := by
  intro p
  induction p with
  | nil =>
    intro q s
    rfl
  | cons nm rest ih =>
    intro q s
    rw [List.cons_append, descend_cons, descend_cons]
    cases hf : findChild b s nm with
    | none => rfl
    | some c => exact ih q c

theorem pushPath_spec : ∀ (p : List String) (b : Arena) (s : Nat),
    arenaWF b = true → s < b.length →
    ∃ tail, (pushPath b s p).1 = b ++ tail ∧
      arenaWF (pushPath b s p).1 = true ∧
      (pushPath b s p).2 < (pushPath b s p).1.length ∧
      descend (pushPath b s p).1 s p = some (pushPath b s p).2 := by
  intro p
  induction p with
  | nil =>
    intro b s hwf hs
    exact ⟨[], (List.append_nil b).symm, hwf, hs, rfl⟩
  | cons nm rest ih =>
    intro b s hwf hs
    obtain ⟨t1, ht1⟩ := push_ext b s nm
    have hwf1 : arenaWF (push b s nm).1 = true := push_wf b s nm hwf hs
    obtain ⟨hc, hble⟩ := push_lt b s nm
    obtain ⟨t2, ht2, hwf2, hlt2, hdesc⟩ :=
      ih (push b s nm).1 (push b s nm).2 hwf1 hc
    have hshow : pushPath b s (nm :: rest) =
        pushPath (push b s nm).1 (push b s nm).2 rest := rfl
    refine ⟨t1 ++ t2, ?_, ?_, ?_, ?_⟩
    · rw [hshow, ht2, ht1, List.append_assoc]
    · rw [hshow]
      exact hwf2
    · rw [hshow]
      exact hlt2
    · rw [hshow, descend_cons]
      have hfc : findChild (pushPath (push b s nm).1 (push b s nm).2 rest).1
          s nm = some (push b s nm).2 := by
        rw [ht2]
        exact findChild_mono _ t2 s nm _ (push_found b s nm)
      rw [hfc]
      exact hdesc

theorem upPathF_root (b : Arena) (r : Nat) (hr : parentOf b r = none) :
    ∀ fuel, upPathF b fuel r = (r, []) := by
  intro fuel
  cases fuel with
  | zero => rfl
  | succ g =>
    simp only [upPathF]
    rw [hr]

theorem upPathF_congr (b : Arena) (hwf : arenaWF b = true) :
    ∀ (i f1 f2 : Nat), i < b.length → i < f1 → i < f2 →
      upPathF b f1 i = upPathF b f2 i := by
  intro i
  induction i using Nat.strong_induction_on with
  | _ i ih =>
    intro f1 f2 hi hf1 hf2
    obtain ⟨g1, rfl⟩ : ∃ g, f1 = g + 1 := ⟨f1 - 1, by omega⟩
    obtain ⟨g2, rfl⟩ : ∃ g, f2 = g + 1 := ⟨f2 - 1, by omega⟩
    simp only [upPathF]
    cases hp : parentOf b i with
    | none => rfl
    | some p =>
      have hps := arenaWF_parent b hwf i p hi hp
      show ((upPathF b g1 p).1, (upPathF b g1 p).2 ++ [nameOf b i]) =
        ((upPathF b g2 p).1, (upPathF b g2 p).2 ++ [nameOf b i])
      rw [ih p hps g1 g2 (lt_trans hps hi) (by omega) (by omega)]

theorem upPath_step (b : Arena) (hwf : arenaWF b = true) (i p : Nat)
    (hi : i < b.length) (hp : parentOf b i = some p) :
    upPath b i = ((upPath b p).1, (upPath b p).2 ++ [nameOf b i]) := by
  have hps := arenaWF_parent b hwf i p hi hp
  obtain ⟨g, hg⟩ : ∃ g, b.length = g + 1 := ⟨b.length - 1, by omega⟩
  unfold upPath
  rw [hg]
  have hred : upPathF b (g+1) i =
      ((upPathF b g p).1, (upPathF b g p).2 ++ [nameOf b i]) := by
    simp only [upPathF]
    rw [hp]
  rw [hred, upPathF_congr b hwf p g (g+1) (by omega) (by omega) (by omega)]

theorem descend_upPath (b : Arena) (hwf : arenaWF b = true) :
    ∀ (p : List String) (s c : Nat), s < b.length →
      descend b s p = some c →
      c < b.length ∧ upPath b c = ((upPath b s).1, (upPath b s).2 ++ p) := by
  intro p
  induction p with
  | nil =>
    intro s c hs h
    obtain rfl : s = c := Option.some.inj h
    exact ⟨hs, by rw [List.append_nil]⟩
  | cons nm rest ih =>
    intro s c hs h
    cases hf : findChild b s nm with
    | none =>
      rw [descend_cons, hf] at h
      exact Option.noConfusion h
    | some c1 =>
      rw [descend_cons, hf] at h
      obtain ⟨hc1l, hc1p, hc1n⟩ := findChild_some b s nm c1 hf
      obtain ⟨hcl, hup⟩ := ih c1 c hc1l h
      refine ⟨hcl, ?_⟩
      rw [hup, upPath_step b hwf c1 s hc1l hc1p, hc1n]
      simp [List.append_assoc]

theorem childNamesUnique_eq (a : Arena) (hu : childNamesUnique a = true) :
    ∀ i j, i < a.length → j < a.length →
      (parentOf a i).isSome = true → parentOf a i = parentOf a j →
      nameOf a i = nameOf a j → i = j := by
  intro i j hi hj hs hp hn
  have h := List.all_eq_true.mp
    (List.all_eq_true.mp hu i (List.mem_range.mpr hi)) j (List.mem_range.mpr hj)
  rw [Bool.or_eq_true] at h
  rcases h with h1 | h1
  · exact of_decide_eq_true h1
  · rw [hs, decide_eq_true hp, decide_eq_true hn] at h1
    simp at h1

theorem pathBelow_some_ne (a : Arena) (hwf : arenaWF a = true)
    (w leaf : Nat) (p : List String) (hl : leaf < a.length)
    (hne : ¬ (leaf = w)) (h : pathBelow a w leaf = some p) :
    ∃ pr q, parentOf a leaf = some pr ∧ pathBelow a w pr = some q ∧
      p = q ++ [nameOf a leaf] := by
  cases hp : parentOf a leaf with
  | none =>
    exfalso
    unfold pathBelow at h
    obtain ⟨g, hg⟩ : ∃ g, a.length = g + 1 := ⟨a.length - 1, by omega⟩
    rw [hg] at h
    simp only [pathBelowF] at h
    rw [if_neg hne, hp] at h
    exact Option.noConfusion h
  | some pr =>
    rw [pathBelow_step a hwf w leaf pr hl hne hp] at h
    cases hq : pathBelow a w pr with
    | none =>
      rw [hq] at h
      exact Option.noConfusion h
    | some q =>
      rw [hq] at h
      exact ⟨pr, q, rfl, hq, (Option.some.inj h).symm⟩

theorem pathBelow_some_nil (a : Arena) (hwf : arenaWF a = true)
    (w leaf : Nat) (hl : leaf < a.length)
    (h : pathBelow a w leaf = some []) : leaf = w := by
  by_cases hne : leaf = w
  · exact hne
  · obtain ⟨pr, q, _, _, habs⟩ := pathBelow_some_ne a hwf w leaf [] hl hne h
    simp at habs

theorem pathBelow_descend (a : Arena) (hwf : arenaWF a = true)
    (hu : childNamesUnique a = true) :
    ∀ (leaf w : Nat) (p : List String), leaf < a.length →
      pathBelow a w leaf = some p → descend a w p = some leaf := by
  intro leaf
  induction leaf using Nat.strong_induction_on with
  | _ leaf ih =>
    intro w p hl h
    by_cases hne : leaf = w
    · subst hne
      rw [pathBelow_self] at h
      obtain rfl : [] = p := Option.some.inj h
      rfl
    · obtain ⟨pr, q, hp, hq, rfl⟩ := pathBelow_some_ne a hwf w leaf p hl hne h
      have hps := arenaWF_parent a hwf leaf pr hl hp
      have hdq : descend a w q = some pr := ih pr hps w q (by omega) hq
      rw [descend_append, hdq]
      show descend a pr [nameOf a leaf] = some leaf
      rw [descend_cons]
      obtain ⟨c, hfc, hcl, hcp, hcn⟩ :=
        findChild_exists a pr (nameOf a leaf) leaf hl ⟨hp, rfl⟩
      rw [hfc]
      show some c = some leaf
      have hceq : c = leaf := childNamesUnique_eq a hu c leaf hcl hl
        (by rw [hcp]; rfl) (by rw [hcp, hp]) hcn
      rw [hceq]

theorem descend_last_name (b : Arena) (s : Nat) (q : List String)
    (nm : String) (c : Nat) (h : descend b s (q ++ [nm]) = some c) :
    nameOf b c = nm := by
  rw [descend_append] at h
  cases hm : descend b s q with
  | none =>
    rw [hm] at h
    exact Option.noConfusion h
  | some m =>
    rw [hm] at h
    have h2 : descend b m [nm] = some c := h
    rw [descend_cons] at h2
    cases hf : findChild b m nm with
    | none =>
      rw [hf] at h2
      exact Option.noConfusion h2
    | some c1 =>
      rw [hf] at h2
      obtain rfl : c1 = c := Option.some.inj h2
      exact (findChild_some b m nm c1 hf).2.2

theorem freshRoots_get (a : Arena) (roots : List Nat) (i : Nat)
    (hi : i < roots.length) :
    (freshRoots a roots).getD i ⟨"", none⟩ =
      ⟨nameOf a (roots.getD i 0), none⟩ := by
  unfold freshRoots
  rw [List.getD_eq_getElem?_getD, List.getElem?_map, List.getElem?_eq_getElem hi,
    List.getD_eq_getElem roots 0 hi]
  rfl

theorem freshRoots_parent (a : Arena) (roots : List Nat) (i : Nat)
    (hi : i < roots.length) : parentOf (freshRoots a roots) i = none := by
  unfold parentOf
  rw [freshRoots_get a roots i hi]

theorem freshRoots_name (a : Arena) (roots : List Nat) (i : Nat)
    (hi : i < roots.length) :
    nameOf (freshRoots a roots) i = nameOf a (roots.getD i 0) := by
  show ((freshRoots a roots).getD i ⟨"", none⟩).name = nameOf a (roots.getD i 0)
  rw [freshRoots_get a roots i hi]

theorem freshRoots_length (a : Arena) (roots : List Nat) :
    (freshRoots a roots).length = roots.length := by
  unfold freshRoots
  rw [List.length_map]

theorem freshRoots_wf (a : Arena) (roots : List Nat) :
    arenaWF (freshRoots a roots) = true := by
  rw [arenaWF, List.all_eq_true]
  intro i hi
  rw [List.mem_range, freshRoots_length] at hi
  rw [freshRoots_parent a roots i hi]

theorem getD_concat_len {α : Type} (l : List α) (x d : α) :
    (l ++ [x]).getD l.length d = x := by
  rw [List.getD_eq_getElem?_getD, List.getElem?_append_right (le_refl _)]
  simp

theorem lookup_zip_range' : ∀ (roots : List Nat) (off w : Nat),
    roots.Nodup → w ∈ roots →
    ((roots.zip (List.range' off roots.length)).lookup w)
      = some (off + roots.indexOf w) := by
  intro roots
  induction roots with
  | nil =>
    intro off w _ hw
    simp at hw
  | cons r rest ih =>
    intro off w hnd hw
    rw [List.length_cons, List.range'_succ, List.zip_cons_cons]
    by_cases hrw : r = w
    · subst hrw
      rw [List.indexOf_cons_self]
      simp [List.lookup]
    · have hbeq : (r == w) = false := by
        simp [hrw]
      have hbeq2 : (w == r) = false := by
        simp
        exact fun h => hrw h.symm
      rw [List.nodup_cons] at hnd
      have hwrest : w ∈ rest := by
        rcases List.mem_cons.mp hw with h1 | h1
        · exact absurd h1.symm hrw
        · exact h1
      have hlk : List.lookup w ((r, off) :: rest.zip (List.range' (off+1) rest.length))
          = List.lookup w (rest.zip (List.range' (off+1) rest.length)) := by
        simp [List.lookup, hbeq2]
      rw [hlk, ih (off+1) w hnd.2 hwrest]
      have hidx : (r :: rest).indexOf w = rest.indexOf w + 1 := by
        simp [List.indexOf_cons, hbeq]
      rw [hidx]
      have : off + 1 + rest.indexOf w = off + (rest.indexOf w + 1) := by omega
      rw [this]

theorem dup_fold_spec (roots : List Nat) (mapping : List (Nat × Nat))
    (hlk : ∀ w ∈ roots, ((mapping.lookup w).getD 0) = roots.indexOf w) :
    ∀ (ps : List (Nat × List String)) (bcur : Arena) (dcur : List Nat),
      arenaWF bcur = true → roots.length ≤ bcur.length →
      (∀ rp ∈ ps, rp.1 ∈ roots) →
      ∃ tail,
        (ps.foldl (fun acc rp =>
          ((pushPath acc.1 ((mapping.lookup rp.1).getD 0) rp.2).1,
           acc.2 ++ [(pushPath acc.1 ((mapping.lookup rp.1).getD 0) rp.2).2]))
          (bcur, dcur)).1 = bcur ++ tail ∧
        arenaWF (ps.foldl (fun acc rp =>
          ((pushPath acc.1 ((mapping.lookup rp.1).getD 0) rp.2).1,
           acc.2 ++ [(pushPath acc.1 ((mapping.lookup rp.1).getD 0) rp.2).2]))
          (bcur, dcur)).1 = true ∧
        (ps.foldl (fun acc rp =>
          ((pushPath acc.1 ((mapping.lookup rp.1).getD 0) rp.2).1,
           acc.2 ++ [(pushPath acc.1 ((mapping.lookup rp.1).getD 0) rp.2).2]))
          (bcur, dcur)).2.length = dcur.length + ps.length ∧
        (∀ i, i < dcur.length →
          (ps.foldl (fun acc rp =>
            ((pushPath acc.1 ((mapping.lookup rp.1).getD 0) rp.2).1,
             acc.2 ++ [(pushPath acc.1 ((mapping.lookup rp.1).getD 0) rp.2).2]))
            (bcur, dcur)).2.getD i 0 = dcur.getD i 0) ∧
        (∀ k, k < ps.length →
          descend
            (ps.foldl (fun acc rp =>
              ((pushPath acc.1 ((mapping.lookup rp.1).getD 0) rp.2).1,
               acc.2 ++ [(pushPath acc.1 ((mapping.lookup rp.1).getD 0) rp.2).2]))
              (bcur, dcur)).1
            (roots.indexOf (ps.getD k (0, [])).1) ((ps.getD k (0, [])).2)
          = some ((ps.foldl (fun acc rp =>
              ((pushPath acc.1 ((mapping.lookup rp.1).getD 0) rp.2).1,
               acc.2 ++ [(pushPath acc.1 ((mapping.lookup rp.1).getD 0) rp.2).2]))
              (bcur, dcur)).2.getD (dcur.length + k) 0)) := by
  intro ps
  induction ps with
  | nil =>
    intro bcur dcur hwf hlen _
    refine ⟨[], (List.append_nil bcur).symm, hwf, by simp, ?_, ?_⟩
    · intro i _
      rfl
    · intro k hk
      simp at hk
  | cons rp ps ih =>
    intro bcur dcur hwf hlen hall
    have hrp : rp.1 ∈ roots := hall rp (List.mem_cons_self rp ps)
    have hstart : ((mapping.lookup rp.1).getD 0) = roots.indexOf rp.1 :=
      hlk rp.1 hrp
    have hstartlt : ((mapping.lookup rp.1).getD 0) < bcur.length := by
      rw [hstart]
      have := List.indexOf_lt_length.mpr hrp
      omega
    obtain ⟨t1, ht1, hwf1, hlt1, hdesc1⟩ :=
      pushPath_spec rp.2 bcur ((mapping.lookup rp.1).getD 0) hwf hstartlt
    have hlen1 : roots.length ≤
        (pushPath bcur ((mapping.lookup rp.1).getD 0) rp.2).1.length := by
      rw [ht1, List.length_append]
      omega
    obtain ⟨t2, ht2, hwf2, hcnt2, hpres2, hk2⟩ :=
      ih (pushPath bcur ((mapping.lookup rp.1).getD 0) rp.2).1
        (dcur ++ [(pushPath bcur ((mapping.lookup rp.1).getD 0) rp.2).2])
        hwf1 hlen1 (fun q hq => hall q (List.mem_cons_of_mem rp hq))
    rw [List.foldl_cons]
    refine ⟨t1 ++ t2, ?_, hwf2, ?_, ?_, ?_⟩
    · rw [ht2, ht1, List.append_assoc]
    · rw [hcnt2]
      simp only [List.length_append, List.length_cons, List.length_nil,
        List.length_singleton]
      omega
    · intro i hi
      rw [hpres2 i (by simp; omega)]
      rw [List.getD_append _ _ _ _ hi]
    · intro k hk
      cases k with
      | zero =>
        have hval := hpres2 dcur.length (by simp)
        rw [getD_concat_len] at hval
        simp only [List.getD_cons_zero]
        rw [Nat.add_zero, hval, ← hstart]
        have hd2 := descend_mono _ t2 rp.2 ((mapping.lookup rp.1).getD 0)
          (pushPath bcur ((mapping.lookup rp.1).getD 0) rp.2).2 hdesc1
        rw [← ht2] at hd2
        exact hd2
      | succ k =>
        have hk2r := hk2 k (by simp only [List.length_cons] at hk; omega)
        simp only [List.getD_cons_succ]
        have harith : dcur.length + (k + 1) =
            (dcur ++ [(pushPath bcur ((mapping.lookup rp.1).getD 0) rp.2).2]).length + k := by
          simp only [List.length_append, List.length_singleton]
          omega
        rw [harith]
        exact hk2r

theorem getD_map_lt {α β : Type} (f : α → β) (l : List α) (k : Nat)
    (d : β) (d0 : α) (hk : k < l.length) :
    (l.map f).getD k d = f (l.getD k d0) := by
  rw [List.getD_eq_getElem _ _ (by rw [List.length_map]; exact hk),
    List.getElem_map, List.getD_eq_getElem _ _ hk]

theorem getD_indexOf (roots : List Nat) (w : Nat) (hw : w ∈ roots) :
    roots.getD (roots.indexOf w) 0 = w := by
  rw [List.getD_eq_getElem _ _ (List.indexOf_lt_length.mpr hw)]
  exact List.getElem_indexOf (List.indexOf_lt_length.mpr hw)

theorem getD_mem {α : Type} (l : List α) (k : Nat) (d : α)
    (hk : k < l.length) : l.getD k d ∈ l := by
  rw [List.getD_eq_getElem _ _ hk]
  exact List.getElem_mem hk

theorem outermost_root (a : Arena) (scopes : List Nat)
    (hwf : arenaWF a = true) (leaf : Nat) (hl : leaf < a.length)
    (hleaf : leaf ∈ scopes) :
    outermostAncestorIn a scopes leaf ∈ scopes ∧
    hasAncB a scopes (outermostAncestorIn a scopes leaf) = false ∧
    outermostAncestorIn a scopes leaf < a.length := by
  unfold outermostAncestorIn
  cases ho : oaSpec a scopes a.length (parentOf a leaf) with
  | none =>
    refine ⟨hleaf, ?_, hl⟩
    simp [hasAncB, ho]
  | some t =>
    obtain ⟨_, h2⟩ := oaSpec_spec a scopes a.length (parentOf a leaf)
    obtain ⟨htS, htc⟩ := h2 t ho
    cases hp : parentOf a leaf with
    | none =>
      rw [hp, oaSpec_none] at ho
      exact Option.noConfusion ho
    | some pr =>
      have hps := arenaWF_parent a hwf leaf pr hl hp
      have hprl : pr < a.length := lt_trans hps hl
      rw [hp] at htc
      have htl : t < a.length := (chainO_mem a hwf a.length pr hprl t htc).2
      obtain ⟨agA, agB⟩ :=
        oa_walk_agree a scopes scopes hwf (fun x hx => hx)
          (fun x _ hxs _ => hxs) a.length pr [nameOf a leaf] hprl hprl
      rw [hp] at ho
      cases hws : walkSpec a scopes a.length (some pr) [nameOf a leaf] with
      | none =>
        rw [agA.mp hws] at ho
        exact Option.noConfusion ho
      | some r =>
        obtain ⟨t0, p0⟩ := r
        have ht0 : t0 = t := by
          have hAB := agB t0 p0 hws
          rw [hAB] at ho
          exact Option.some.inj ho
        obtain ⟨_, _, habove, _, _, _⟩ :=
          (walkSpec_spec a scopes hwf a.length pr [nameOf a leaf]
            hprl hprl).2 t0 p0 hws
        subst ht0
        refine ⟨htS, ?_, htl⟩
        show (oaSpec a scopes a.length (parentOf a t0)).isSome = false
        have hnone : oaSpec a scopes a.length (parentOf a t0) = none := by
          rw [(oaSpec_spec a scopes a.length (parentOf a t0)).1]
          exact habove
        rw [hnone]
        rfl

/-- C3 (corrected): deduplicating an ordered collection of scope handles,
possibly holding both an ancestor and one of its descendants, and
reduplicating against a structurally equivalent freshly created root set
yields, whenever no handle having a proper ancestor also present in the
input occurs more than once, one scope per original handle forming a tree
isomorphic to the original input tree: the same number of handles, the same
name at every handle, the same name path under the corresponding fresh root
as under the deduplicated root, and the same aliasing pattern between
handles.  When such a handle is duplicated, the deduplication raises
KeyError (lift.py line 56) and no tree is produced, refuting the round trip
claim over all handle lists. -/
theorem dedup_dup_roundtrip_iso (a : Arena) (scopes : List Nat)
    (hwf : arenaWF a = true) (hu : childNamesUnique a = true)
    (hin : ∀ i ∈ scopes, i < a.length)
    (hdup : ∀ l ∈ scopes, hasAncB a scopes l = true → scopes.count l ≤ 1)
    (dd : List Nat × List (Nat × List String))
    (hdde : _dedup_scopes a scopes = .ok dd)
    (r : Arena × List Nat)
    (hre : dedup_dup_roundtrip a scopes = .ok r) :
    (r.2.length = scopes.length) ∧
    (∀ k, k < scopes.length →
      nameOf r.1 (r.2.getD k 0) = nameOf a (scopes.getD k 0)) ∧
    (∀ k, k < scopes.length →
      upPath r.1 (r.2.getD k 0)
        = (dd.1.indexOf (outermostAncestorIn a scopes (scopes.getD k 0)),
           (pathBelow a (outermostAncestorIn a scopes (scopes.getD k 0))
             (scopes.getD k 0)).getD [])) ∧
    (∀ i j, i < scopes.length → j < scopes.length →
      (r.2.getD i 0 = r.2.getD j 0 ↔ scopes.getD i 0 = scopes.getD j 0)) := by
  have hloop := dedupLoop_spec a scopes hwf hin scopes [] [] rfl
    (fun l hl hA => ⟨by simp, hdup l hl hA⟩)
  have hdd0 : _dedup_scopes a scopes = .ok
      (msetOf a scopes ([] ++ scopes),
       [] ++ scopes.map (fun leaf =>
         (outermostAncestorIn a scopes leaf,
          (pathBelow a (outermostAncestorIn a scopes leaf) leaf).getD []))) := by
    rw [_dedup_scopes, ← msetOf_nil a scopes]
    exact hloop
  have hddv : dd = (msetOf a scopes ([] ++ scopes),
      [] ++ scopes.map (fun leaf =>
        (outermostAncestorIn a scopes leaf,
         (pathBelow a (outermostAncestorIn a scopes leaf) leaf).getD []))) := by
    rw [hdde] at hdd0
    exact Except.ok.inj hdd0
  have hrootsEq : dd.1 = msetOf a scopes scopes := by
    rw [hddv]
    rfl
  have hpathsEq : dd.2 = scopes.map (fun leaf =>
      (outermostAncestorIn a scopes leaf,
       (pathBelow a (outermostAncestorIn a scopes leaf) leaf).getD [])) := by
    rw [hddv]
    rfl
  have hreq : r = _dup_scopes (freshRoots a dd.1)
      (dd.1.zip (List.range dd.1.length)) dd.2 := by
    have h := hre
    simp only [dedup_dup_roundtrip, hdde, Except.ok.injEq] at h
    exact h.symm
  have hndroots : dd.1.Nodup := by
    rw [hrootsEq, msetOf]
    exact (ordNub_nodup scopes).filter _
  have hwroots : ∀ leaf ∈ scopes,
      outermostAncestorIn a scopes leaf ∈ dd.1 := by
    intro leaf hleaf
    obtain ⟨hS, hA, _⟩ := outermost_root a scopes hwf leaf (hin leaf hleaf) hleaf
    rw [hrootsEq, msetOf, List.mem_filter]
    refine ⟨(ordNub_mem scopes _).mpr hS, ?_⟩
    rw [hA]
    simp
  have hlk : ∀ w ∈ dd.1,
      (((dd.1.zip
          (List.range dd.1.length)).lookup w).getD 0)
        = dd.1.indexOf w := by
    intro w hwmem
    rw [List.range_eq_range', lookup_zip_range' _ 0 w hndroots hwmem]
    simp
  have hentries : ∀ rp ∈ dd.2,
      rp.1 ∈ dd.1 := by
    intro rp hrp
    rw [hpathsEq, List.mem_map] at hrp
    obtain ⟨leaf, hleaf, rfl⟩ := hrp
    exact hwroots leaf hleaf
  obtain ⟨tail, hext, hwfb, hcnt, _, hdesc⟩ :=
    dup_fold_spec dd.1
      (dd.1.zip
        (List.range dd.1.length))
      hlk dd.2
      (freshRoots a dd.1) []
      (freshRoots_wf a _)
      (by rw [freshRoots_length])
      hentries
  have hlen2 : dd.2.length = scopes.length := by
    rw [hpathsEq, List.length_map]
  have hgetpaths : ∀ k, k < scopes.length →
      dd.2.getD k (0, []) =
        (outermostAncestorIn a scopes (scopes.getD k 0),
         (pathBelow a (outermostAncestorIn a scopes (scopes.getD k 0))
            (scopes.getD k 0)).getD []) := by
    intro k hk
    rw [hpathsEq, getD_map_lt _ scopes k (0, []) 0 hk]
  have hext2 : r.1 =
      freshRoots a dd.1 ++ tail := by
    rw [hreq]
    exact hext
  have hwfb2 : arenaWF r.1 = true := by
    rw [hreq]
    exact hwfb
  have hdesck : ∀ k, k < scopes.length →
      descend r.1
        (dd.1.indexOf
          (outermostAncestorIn a scopes (scopes.getD k 0)))
        ((pathBelow a (outermostAncestorIn a scopes (scopes.getD k 0))
          (scopes.getD k 0)).getD [])
      = some (r.2.getD k 0) := by
    intro k hk
    have h := hdesc k (by rw [hlen2]; exact hk)
    rw [hgetpaths k hk] at h
    simp only [List.length_nil, Nat.zero_add] at h
    rw [hreq]
    exact h
  have hpbk : ∀ k, k < scopes.length →
      ∃ q, pathBelow a (outermostAncestorIn a scopes (scopes.getD k 0))
        (scopes.getD k 0) = some q := by
    intro k hk
    have hleafmem : scopes.getD k 0 ∈ scopes := getD_mem scopes k 0 hk
    obtain ⟨q, hq, _, _⟩ := dedupWalk_result a (ordNub scopes) scopes hwf
      (fun x hx => (ordNub_mem scopes x).mp hx)
      (fun x _ hxs _ => (ordNub_mem scopes x).mpr hxs)
      (scopes.getD k 0) (hin _ hleafmem)
    exact ⟨q, hq⟩
  have hstartlt : ∀ k, k < scopes.length →
      dd.1.indexOf
          (outermostAncestorIn a scopes (scopes.getD k 0))
        < (freshRoots a dd.1).length := by
    intro k hk
    rw [freshRoots_length]
    exact List.indexOf_lt_length.mpr
      (hwroots (scopes.getD k 0) (getD_mem scopes k 0 hk))
  have hstartroot : ∀ k, k < scopes.length →
      parentOf r.1
        (dd.1.indexOf
          (outermostAncestorIn a scopes (scopes.getD k 0))) = none := by
    intro k hk
    rw [hext2, parentOf_append _ _ _ (hstartlt k hk)]
    exact freshRoots_parent a _ _ (by
      have := hstartlt k hk
      rw [freshRoots_length] at this
      exact this)
  have hup : ∀ k, k < scopes.length →
      upPath r.1
          (r.2.getD k 0)
        = (dd.1.indexOf
             (outermostAncestorIn a scopes (scopes.getD k 0)),
           (pathBelow a (outermostAncestorIn a scopes (scopes.getD k 0))
             (scopes.getD k 0)).getD []) := by
    intro k hk
    have hslt : dd.1.indexOf
        (outermostAncestorIn a scopes (scopes.getD k 0))
        < r.1.length := by
      rw [hext2, List.length_append]
      have := hstartlt k hk
      omega
    obtain ⟨_, hupeq⟩ := descend_upPath r.1
      hwfb2 _ _ _ hslt (hdesck k hk)
    rw [hupeq]
    have hroot : upPath r.1
        (dd.1.indexOf
          (outermostAncestorIn a scopes (scopes.getD k 0)))
        = (dd.1.indexOf
            (outermostAncestorIn a scopes (scopes.getD k 0)), []) := by
      unfold upPath
      exact upPathF_root _ _ (hstartroot k hk) _
    rw [hroot, List.nil_append]
  refine ⟨?_, ?_, hup, ?_⟩
  · have h := hcnt
    simp only [List.length_nil, Nat.zero_add] at h
    rw [hlen2] at h
    rw [hreq]
    exact h
  · intro k hk
    have hleafmem : scopes.getD k 0 ∈ scopes := getD_mem scopes k 0 hk
    obtain ⟨q, hq⟩ := hpbk k hk
    have hdk := hdesck k hk
    rw [hq] at hdk
    simp only [Option.getD_some] at hdk
    by_cases hqnil : q = []
    · subst hqnil
      have hlw : scopes.getD k 0 = outermostAncestorIn a scopes (scopes.getD k 0) :=
        pathBelow_some_nil a hwf _ _ (hin _ hleafmem) hq
      have hdup : r.2.getD k 0 =
          dd.1.indexOf
            (outermostAncestorIn a scopes (scopes.getD k 0)) :=
        (Option.some.inj hdk).symm
      rw [hdup, hext2, nameOf_append _ _ _ (hstartlt k hk),
        freshRoots_name a _ _ (by
          have := hstartlt k hk
          rw [freshRoots_length] at this
          exact this),
        getD_indexOf _ _ (hwroots _ hleafmem), ← hlw]
    · have hlw : ¬ (scopes.getD k 0 = outermostAncestorIn a scopes (scopes.getD k 0)) := by
        intro heq
        rw [← heq, pathBelow_self] at hq
        exact hqnil (Option.some.inj hq).symm
      obtain ⟨pr, q0, _, _, hshape⟩ := pathBelow_some_ne a hwf _ _ q
        (hin _ hleafmem) hlw hq
      rw [hshape] at hdk
      exact descend_last_name _ _ q0 _ _ hdk
  · intro i j hi hj
    constructor
    · intro hdupeq
      have hui := hup i hi
      have huj := hup j hj
      rw [hdupeq, huj] at hui
      have hidx := congrArg Prod.fst hui
      have hpath := congrArg Prod.snd hui
      simp only at hidx hpath
      have hwi := hwroots (scopes.getD j 0) (getD_mem scopes j 0 hj)
      have hwj := hwroots (scopes.getD i 0) (getD_mem scopes i 0 hi)
      have hweq : outermostAncestorIn a scopes (scopes.getD j 0)
          = outermostAncestorIn a scopes (scopes.getD i 0) :=
        (List.indexOf_inj hwi hwj).mp hidx
      obtain ⟨qi, hqi⟩ := hpbk i hi
      obtain ⟨qj, hqj⟩ := hpbk j hj
      have hdi := pathBelow_descend a hwf hu (scopes.getD i 0) _ qi
        (hin _ (getD_mem scopes i 0 hi)) hqi
      have hdj := pathBelow_descend a hwf hu (scopes.getD j 0) _ qj
        (hin _ (getD_mem scopes j 0 hj)) hqj
      rw [hqi] at hpath
      rw [hqj] at hpath
      simp only [Option.getD_some] at hpath
      rw [hweq, hpath] at hdj
      rw [hdj] at hdi
      exact (Option.some.inj hdi).symm
    · intro hleq
      have hdi := hdesck i hi
      have hdj := hdesck j hj
      rw [hleq] at hdi
      rw [hdi] at hdj
      exact Option.some.inj hdj

/-- Witness for C3 at a concrete input: the round trip over the handle
list holding the grandchild then the child, which has no duplicated
descendant, yields two handles with the original names and the original
aliasing pattern. -/
theorem dedup_dup_roundtrip_iso_witness :
    arenaWF demoArena = true ∧ childNamesUnique demoArena = true ∧
    (∀ i ∈ [2, 1], i < demoArena.length) ∧
    (∀ l ∈ [2, 1], hasAncB demoArena [2, 1] l = true →
      ([2, 1] : List Nat).count l ≤ 1) ∧
    dedup_dup_roundtrip demoArena [2, 1]
      = .ok ([⟨"b", none⟩, ⟨"c", some 0⟩], [1, 0]) ∧
    (∀ k, k < ([2, 1] : List Nat).length →
      nameOf ([⟨"b", none⟩, ⟨"c", some 0⟩] : Arena)
          (([1, 0] : List Nat).getD k 0)
        = nameOf demoArena (([2, 1] : List Nat).getD k 0)) ∧
    (∀ i j, i < ([2, 1] : List Nat).length → j < ([2, 1] : List Nat).length →
      (([1, 0] : List Nat).getD i 0 = ([1, 0] : List Nat).getD j 0
       ↔ ([2, 1] : List Nat).getD i 0 = ([2, 1] : List Nat).getD j 0)) := by
  have H := dedup_dup_roundtrip_iso demoArena [2, 1] (by decide) (by decide)
    (by decide) (by decide) ([1], [(1, ["c"]), (1, [])]) rfl
    ([⟨"b", none⟩, ⟨"c", some 0⟩], [1, 0]) rfl
  exact ⟨by decide, by decide, by decide, by decide, rfl, H.2.1, H.2.2.2⟩

/-- Counterexample to C3 as stated: on the handle list holding the child,
the root, then the child again, the deduplication step of the round trip
raises KeyError (lift.py line 56), so no reduplicated scope tree is
produced at all, although the arena is well formed with unique sibling
names and every handle is in range. -/
theorem dedup_dup_roundtrip_keyerror :
    arenaWF demoArena = true ∧ childNamesUnique demoArena = true ∧
    (∀ i ∈ [1, 0, 1], i < demoArena.length) ∧
    dedup_dup_roundtrip demoArena [1, 0, 1] = .error "KeyError" :=
  ⟨by decide, by decide, by decide, rfl⟩

theorem put_entries_spec (sid : Nat) (col : String) :
    ∀ (es : List (String × Nat)) (acc : Store × List PackEvent),
      (∀ j, ¬ (j = sid) → (put_entries sid col es acc).1 j = acc.1 j) ∧
      (∀ e ∈ (put_entries sid col es acc).2,
        e ∈ acc.2 ∨ ∃ n v, e = PackEvent.putVariable sid col n v) := by
  intro es
  induction es with
  | nil =>
    intro acc
    exact ⟨fun j _ => rfl, fun e he => Or.inl he⟩
  | cons nv rest ih =>
    intro acc
    obtain ⟨ih1, ih2⟩ := ih (put_variable acc.1 sid col nv.1 nv.2,
      acc.2 ++ [PackEvent.putVariable sid col nv.1 nv.2])
    constructor
    · intro j hj
      rw [put_entries, List.foldl_cons]
      have h1 := ih1 j hj
      rw [put_entries] at h1
      rw [h1]
      show (if j = sid then _ else acc.1 j) = acc.1 j
      rw [if_neg hj]
    · intro e he
      rw [put_entries, List.foldl_cons] at he
      have h2 := ih2 e (by rw [put_entries]; exact he)
      rcases h2 with h2 | h2
      · rcases List.mem_append.mp h2 with h3 | h3
        · exact Or.inl h3
        · rw [List.mem_singleton] at h3
          exact Or.inr ⟨nv.1, nv.2, h3⟩
      · exact Or.inr h2

theorem put_group_spec (sid : Nat) :
    ∀ (g : Vars) (acc : Store × List PackEvent),
      (∀ j, ¬ (j = sid) → (put_group sid g acc).1 j = acc.1 j) ∧
      (∀ e ∈ (put_group sid g acc).2,
        e ∈ acc.2 ∨ ∃ c n v, e = PackEvent.putVariable sid c n v) := by
  intro g
  induction g with
  | nil =>
    intro acc
    exact ⟨fun j _ => rfl, fun e he => Or.inl he⟩
  | cons cp rest ih =>
    intro acc
    obtain ⟨ih1, ih2⟩ := ih (put_entries sid cp.1 cp.2.entries acc)
    obtain ⟨he1, he2⟩ := put_entries_spec sid cp.1 cp.2.entries acc
    constructor
    · intro j hj
      rw [put_group, List.foldl_cons]
      have h1 := ih1 j hj
      rw [put_group] at h1
      rw [h1]
      exact he1 j hj
    · intro e he
      rw [put_group, List.foldl_cons] at he
      have h2 := ih2 e (by rw [put_group]; exact he)
      rcases h2 with h2 | h2
      · rcases he2 e h2 with h3 | h3
        · exact Or.inl h3
        · obtain ⟨n, v, h4⟩ := h3
          exact Or.inr ⟨cp.1, n, v, h4⟩
      · exact Or.inr h2

theorem put_groups_spec (sid : Nat) :
    ∀ (gs : List Vars) (acc : Store × List PackEvent),
      (∀ j, ¬ (j = sid) → (put_groups sid gs acc).1 j = acc.1 j) ∧
      (∀ e ∈ (put_groups sid gs acc).2,
        e ∈ acc.2 ∨ ∃ c n v, e = PackEvent.putVariable sid c n v) := by
  intro gs
  induction gs with
  | nil =>
    intro acc
    exact ⟨fun j _ => rfl, fun e he => Or.inl he⟩
  | cons g rest ih =>
    intro acc
    obtain ⟨ih1, ih2⟩ := ih (put_group sid g acc)
    obtain ⟨hg1, hg2⟩ := put_group_spec sid g acc
    constructor
    · intro j hj
      rw [put_groups, List.foldl_cons]
      have h1 := ih1 j hj
      rw [put_groups] at h1
      rw [h1]
      exact hg1 j hj
    · intro e he
      rw [put_groups, List.foldl_cons] at he
      have h2 := ih2 e (by rw [put_groups]; exact he)
      rcases h2 with h2 | h2
      · exact hg2 e h2
      · exact Or.inr h2

theorem write_back_fold_spec :
    ∀ (sgl : List (Nat × List Vars)) (acc : Store × List PackEvent),
      (∀ j, (∀ sg ∈ sgl, ¬ (j = sg.1)) →
        (sgl.foldl (fun acc sg => put_groups sg.1 sg.2 acc) acc).1 j
          = acc.1 j) ∧
      (∀ e ∈ (sgl.foldl (fun acc sg => put_groups sg.1 sg.2 acc) acc).2,
        e ∈ acc.2 ∨ ∃ sid c n v, e = PackEvent.putVariable sid c n v ∧
          ∃ sg ∈ sgl, sid = sg.1) := by
  intro sgl
  induction sgl with
  | nil =>
    intro acc
    exact ⟨fun j _ => rfl, fun e he => Or.inl he⟩
  | cons sg rest ih =>
    intro acc
    obtain ⟨ih1, ih2⟩ := ih (put_groups sg.1 sg.2 acc)
    obtain ⟨hs1, hs2⟩ := put_groups_spec sg.1 sg.2 acc
    constructor
    · intro j hj
      rw [List.foldl_cons, ih1 j
        (fun q hq => hj q (List.mem_cons_of_mem sg hq))]
      exact hs1 j (hj sg (List.mem_cons_self sg rest))
    · intro e he
      rw [List.foldl_cons] at he
      rcases ih2 e he with h2 | h2
      · rcases hs2 e h2 with h3 | h3
        · exact Or.inl h3
        · obtain ⟨c, n, v, h4⟩ := h3
          exact Or.inr ⟨sg.1, c, n, v, h4, sg, List.mem_cons_self sg rest, rfl⟩
      · obtain ⟨sid, c, n, v, h4, q, hq, h5⟩ := h2
        exact Or.inr ⟨sid, c, n, v, h4, q, List.mem_cons_of_mem sg hq, h5⟩

theorem dedupLoop_mset_sub (a : Arena) :
    ∀ (rest mset : List Nat) (paths : List (Nat × List String))
      (res : List Nat × List (Nat × List String)),
      dedupLoop a rest mset paths = .ok res → ∀ x ∈ res.1, x ∈ mset := by
  intro rest
  induction rest with
  | nil =>
    intro mset paths res hres x hx
    simp only [dedupLoop, Except.ok.injEq] at hres
    rw [← hres] at hx
    exact hx
  | cons leaf rst ih =>
    intro mset paths res hres x hx
    have hres2 : (if (dedupWalk a mset a.length (parentOf a leaf) leaf []
          [nameOf a leaf]).1 ≠ leaf then
        (if leaf ∈ mset then
          dedupLoop a rst (mset.erase leaf)
            (paths ++ [dedupWalk a mset a.length (parentOf a leaf) leaf []
              [nameOf a leaf]])
        else .error "KeyError")
      else dedupLoop a rst mset
        (paths ++ [dedupWalk a mset a.length (parentOf a leaf) leaf []
          [nameOf a leaf]])) = .ok res := hres
    by_cases hc : (dedupWalk a mset a.length (parentOf a leaf) leaf []
        [nameOf a leaf]).1 ≠ leaf
    · rw [if_pos hc] at hres2
      by_cases hm : leaf ∈ mset
      · rw [if_pos hm] at hres2
        exact List.mem_of_mem_erase (ih _ _ res hres2 x hx)
      · rw [if_neg hm] at hres2
        exact Except.noConfusion hres2
    · rw [if_neg hc] at hres2
      exact ih _ _ res hres2 x hx

theorem dedup_roots_sub (a : Arena) (handles : List Nat)
    (dd : List Nat × List (Nat × List String))
    (hdd : _dedup_scopes a handles = .ok dd) :
    ∀ x ∈ dd.1, x ∈ handles := by
  intro x hx
  have h := dedupLoop_mset_sub a handles (ordNub handles) [] dd hdd x hx
  exact (ordNub_mem handles x).mp h

/-- C6: a pack wrapped call mutates the canonical outer scopes exactly
once, after the payload has returned: whenever the deduplication of the
input handles returns, the wrapper returns the payload answer together with
the store produced by the write back loop over the yielded output groups
and a trace opening with the payload return followed by exactly the write
back events; every such event is a put_variable write addressed to one of
the deduplicated input scopes, and every scope outside the input handles is
left untouched. -/
theorem pack_mutates_outer_once {α : Type} (a : Arena) (handles : List Nat)
    (in_f out_f : List CFilter)
    (fn : List (List Vars) → α × List (List Vars)) (st : Store)
    (dd : List Nat × List (Nat × List String))
    (hdd : _dedup_scopes a handles = .ok dd) :
    (pack_wrapper a handles in_f out_f fn st = .ok
      ((fn (dd.1.map (fun sid =>
          freezeInOnly out_f (group_collections (st sid) in_f)))).1,
       (write_back dd.1 (fn (dd.1.map (fun sid =>
          freezeInOnly out_f (group_collections (st sid) in_f)))).2 st).1,
       PackEvent.payloadReturned ::
         (write_back dd.1 (fn (dd.1.map (fun sid =>
            freezeInOnly out_f (group_collections (st sid) in_f)))).2 st).2)) ∧
    (∀ e ∈ (write_back dd.1 (fn (dd.1.map (fun sid =>
        freezeInOnly out_f (group_collections (st sid) in_f)))).2 st).2,
      ∃ sid c n v, e = PackEvent.putVariable sid c n v ∧ sid ∈ handles) ∧
    (∀ sid, ¬ (sid ∈ handles) →
      (write_back dd.1 (fn (dd.1.map (fun sid =>
        freezeInOnly out_f (group_collections (st sid) in_f)))).2 st).1 sid
        = st sid) := by
  refine ⟨?_, ?_, ?_⟩
  · simp only [pack_wrapper, hdd]
  · intro e he
    obtain ⟨_, h2⟩ := write_back_fold_spec
      (dd.1.zip (fn (dd.1.map (fun sid =>
        freezeInOnly out_f (group_collections (st sid) in_f)))).2) (st, [])
    rcases h2 e he with h3 | h3
    · simp at h3
    · obtain ⟨sid, c, n, v, h4, sg, hsg, h5⟩ := h3
      refine ⟨sid, c, n, v, h4, ?_⟩
      rw [h5]
      exact dedup_roots_sub a handles dd hdd sg.1 (List.of_mem_zip hsg).1
  · intro sid hsid
    obtain ⟨h1, _⟩ := write_back_fold_spec
      (dd.1.zip (fn (dd.1.map (fun sid =>
        freezeInOnly out_f (group_collections (st sid) in_f)))).2) (st, [])
    exact h1 sid (fun sg hsg heq => hsid (heq ▸
      dedup_roots_sub a handles dd hdd sg.1 (List.of_mem_zip hsg).1))

/-- Witness for C6 at concrete inputs: with one input scope handle, a scope
outside the input tree keeps its variables after the write back of the pack
call. -/
theorem pack_mutates_outer_once_witness :
    ¬ ((5 : Nat) ∈ [1]) ∧
    (write_back [1]
        ((fun gs => ((), gs)) (([1] : List Nat).map (fun _ =>
          freezeInOnly [CFilter.matchAll]
            (group_collections [("params", Col.mutCol [("w", 1)])]
              [CFilter.matchAll])))).2
        (fun _ => [("params", Col.mutCol [("w", 1)])])).1 5
      = [("params", Col.mutCol [("w", 1)])] :=
  ⟨by decide,
   (pack_mutates_outer_once demoArena [1] [CFilter.matchAll]
      [CFilter.matchAll] (fun gs => ((), gs))
      (fun _ => [("params", Col.mutCol [("w", 1)])])
      ([1], [(1, [])]) rfl).2.2 5 (by decide)⟩

theorem reinsert_keeps (in_group : Vars) :
    ∀ (out_group : Vars), ∀ q ∈ out_group,
      q ∈ reinsert_broadcast in_group out_group := by
  induction in_group with
  | nil =>
    intro og q hq
    exact hq
  | cons p rest ih =>
    intro og q hq
    show q ∈ reinsert_broadcast rest (if og.any (fun r => r.1 = p.1)
      then og else og ++ [p])
    by_cases hk : og.any (fun r => r.1 = p.1)
    · rw [if_pos hk]
      exact ih og q hq
    · rw [if_neg hk]
      exact ih (og ++ [p]) q (List.mem_append_left [p] hq)

theorem reinsert_mem_or (in_group : Vars) :
    ∀ (out_group : Vars) (q : String × Col),
      q ∈ reinsert_broadcast in_group out_group →
      q ∈ out_group ∨ q ∈ in_group := by
  induction in_group with
  | nil =>
    intro og q hq
    exact Or.inl hq
  | cons p rest ih =>
    intro og q hq
    have hq2 : q ∈ reinsert_broadcast rest (if og.any (fun r => r.1 = p.1)
        then og else og ++ [p]) := hq
    by_cases hk : og.any (fun r => r.1 = p.1)
    · rw [if_pos hk] at hq2
      rcases ih og q hq2 with h | h
      · exact Or.inl h
      · exact Or.inr (List.mem_cons_of_mem p h)
    · rw [if_neg hk] at hq2
      rcases ih (og ++ [p]) q hq2 with h | h
      · rcases List.mem_append.mp h with h2 | h2
        · exact Or.inl h2
        · rw [List.mem_singleton] at h2
          exact Or.inr (h2 ▸ List.mem_cons_self p rest)
      · exact Or.inr (List.mem_cons_of_mem p h)

theorem reinsert_adds_missing (in_group : Vars) :
    ∀ (out_group : Vars) (p : String × Col), p ∈ in_group →
      (∀ q ∈ out_group, ¬ (q.1 = p.1)) →
      (∀ q ∈ in_group, q.1 = p.1 → q = p) →
      p ∈ reinsert_broadcast in_group out_group := by
  induction in_group with
  | nil =>
    intro og p hp
    simp at hp
  | cons p0 rest ih =>
    intro og p hp hout huniq
    show p ∈ reinsert_broadcast rest (if og.any (fun r => r.1 = p0.1)
      then og else og ++ [p0])
    by_cases hpp : p0 = p
    · subst hpp
      have hk : og.any (fun r => r.1 = p0.1) = false := by
        rw [List.any_eq_false]
        intro r hr
        simpa using hout r hr
      rw [if_neg (by rw [hk]; exact Bool.false_ne_true)]
      exact reinsert_keeps rest (og ++ [p0]) p0
        (List.mem_append_right og (List.mem_singleton.mpr rfl))
    · have hprest : p ∈ rest := by
        rcases List.mem_cons.mp hp with h | h
        · exact absurd h.symm hpp
        · exact h
      have hout2 : ∀ q ∈ (if og.any (fun r => r.1 = p0.1)
          then og else og ++ [p0]), ¬ (q.1 = p.1) := by
        intro q hq
        by_cases hk : og.any (fun r => r.1 = p0.1)
        · rw [if_pos hk] at hq
          exact hout q hq
        · rw [if_neg hk] at hq
          rcases List.mem_append.mp hq with h2 | h2
          · exact hout q h2
          · rw [List.mem_singleton] at h2
            intro hqp
            rw [h2] at hqp
            exact hpp (huniq p0 (List.mem_cons_self p0 rest) hqp)
      by_cases hk : og.any (fun r => r.1 = p0.1)
      · rw [if_pos hk]
        rw [if_pos hk] at hout2
        exact ih og p hprest hout2
          (fun q hq => huniq q (List.mem_cons_of_mem p0 hq))
      · rw [if_neg hk]
        rw [if_neg hk] at hout2
        exact ih (og ++ [p0]) p hprest hout2
          (fun q hq => huniq q (List.mem_cons_of_mem p0 hq))

theorem keys_nodup_eq {l : Vars} (h : (l.map Prod.fst).Nodup)
    (n : String) (x y : Col) (hx : (n, x) ∈ l) (hy : (n, y) ∈ l) : x = y := by
  induction l with
  | nil => simp at hx
  | cons p rest ih =>
    rw [List.map_cons, List.nodup_cons] at h
    obtain ⟨hhead, htail⟩ := h
    rcases List.mem_cons.mp hx with h1 | h1
    · rcases List.mem_cons.mp hy with h2 | h2
      · rw [← h1] at h2
        exact (Prod.mk.injEq _ _ _ _).mp h2.symm |>.2
      · exfalso
        apply hhead
        rw [← h1]
        exact List.mem_map.mpr ⟨(n, y), h2, rfl⟩
    · rcases List.mem_cons.mp hy with h2 | h2
      · exfalso
        apply hhead
        rw [← h2]
        exact List.mem_map.mpr ⟨(n, x), h1, rfl⟩
      · exact ih htail h1 h2

theorem getD_default {α : Type} (l : List α) (k : Nat) (d : α)
    (hk : ¬ (k < l.length)) : l.getD k d = d := by
  rw [List.getD_eq_getElem?_getD, List.getElem?_eq_none (by omega)]
  rfl

theorem repack_ok_no_frozen_name (outs : List CFilter) (vs : Vars)
    (gs : List Vars) (n : String) (e : List (String × Nat))
    (hok : repack_vars outs vs = .ok gs)
    (hmem : (n, Col.frozenCol e) ∈ vs)
    (hnd : (vs.map Prod.fst).Nodup) :
    ∀ g ∈ gs, ∀ p ∈ g, ¬ (p.1 = n) := by
  intro g hg p hp hpn
  have hshape := repack_vars_ok_shape outs vs gs hok
  subst hshape
  have hpv := group_collections_mem_sub outs _ g hg p hp
  rw [List.mem_filter] at hpv
  obtain ⟨hpv, hmut⟩ := hpv
  have hp2 : (n, p.2) ∈ vs := by
    rwa [show (n, p.2) = p from by rw [← hpn]]
  have heq := keys_nodup_eq hnd n p.2 (Col.frozenCol e) hp2 hmem
  rw [heq] at hmut
  simp [Col.isFrozenDict] at hmut

theorem scanned_spec {C : Type} (out_f : List CFilter)
    (fn : Vars → C → Vars × C) (n : String) (e : List (String × Nat))
    (hfn1 : ∀ vs c0, (n, Col.frozenCol e) ∈ (fn vs c0).1)
    (hfn2 : ∀ vs c0, ((fn vs c0).1.map Prod.fst).Nodup)
    (b : Vars) (cc : Vars × C) (sv : List Vars)
    (hbm : (n, Col.frozenCol e) ∈ b)
    (hbu : ∀ q ∈ b, q.1 = n → q = (n, Col.frozenCol e))
    (r : Vars × (Vars × C) × List Vars)
    (hok : scanned out_f fn b cc sv = .ok r) :
    (n, Col.frozenCol e) ∈ r.1 ∧
    (∀ q ∈ r.1, q.1 = n → q = (n, Col.frozenCol e)) ∧
    (∀ p ∈ r.2.1.1, ¬ (p.1 = n)) ∧
    (∀ g ∈ r.2.2, ∀ p ∈ g, ¬ (p.1 = n)) := by
  simp only [scanned] at hok
  cases hrp : repack_vars out_f
      (fn (scope_fn_vars (b :: cc.1 :: sv)) cc.2).1 with
  | error err =>
    rw [hrp] at hok
    exact Except.noConfusion hok
  | ok gs =>
    rw [hrp] at hok
    simp only [Except.ok.injEq] at hok
    have hno : ∀ g ∈ gs, ∀ p ∈ g, ¬ (p.1 = n) :=
      repack_ok_no_frozen_name out_f _ gs n e hrp (hfn1 _ _) (hfn2 _ _)
    have hh : ∀ p ∈ gs.headD [], ¬ (p.1 = n) := by
      cases gs with
      | nil => intro p hp; simp at hp
      | cons g0 rest => exact hno g0 (List.mem_cons_self g0 rest)
    subst hok
    refine ⟨?_, ?_, ?_, ?_⟩
    · exact reinsert_adds_missing b (gs.headD []) (n, Col.frozenCol e) hbm
        (fun q hq => hh q hq) (fun q hq hq1 => hbu q hq hq1)
    · intro q hq hq1
      rcases reinsert_mem_or b (gs.headD []) q hq with h | h
      · exact absurd hq1 (hh q h)
      · exact hbu q h hq1
    · intro p hp
      by_cases h1 : 1 < gs.length
      · exact hno _ (getD_mem gs 1 [] h1) p hp
      · rw [getD_default gs 1 [] h1] at hp
        simp at hp
    · intro g hg
      exact hno g (List.mem_of_mem_drop hg)

theorem scan_loop_spec {C : Type} (out_f : List CFilter)
    (fn : Vars → C → Vars × C) (n : String) (e : List (String × Nat))
    (hfn1 : ∀ vs c0, (n, Col.frozenCol e) ∈ (fn vs c0).1)
    (hfn2 : ∀ vs c0, ((fn vs c0).1.map Prod.fst).Nodup)
    (svf : Nat → List Vars) :
    ∀ (len : Nat) (b : Vars) (cc : Vars × C),
      (n, Col.frozenCol e) ∈ b →
      (∀ q ∈ b, q.1 = n → q = (n, Col.frozenCol e)) →
      ∀ r, scan_loop out_f fn svf len b cc = .ok r →
        (n, Col.frozenCol e) ∈ r.1 ∧
        (∀ q ∈ r.1, q.1 = n → q = (n, Col.frozenCol e)) ∧
        (∀ gs ∈ r.2.2, ∀ g ∈ gs, ∀ p ∈ g, ¬ (p.1 = n)) := by
  intro len
  induction len with
  | zero =>
    intro b cc hbm hbu r hok
    simp only [scan_loop, Except.ok.injEq] at hok
    subst hok
    exact ⟨hbm, hbu, by intro gs hgs; simp at hgs⟩
  | succ k ih =>
    intro b cc hbm hbu r hok
    simp only [scan_loop] at hok
    cases hs : scanned out_f fn b cc (svf k) with
    | error err =>
      simp only [hs] at hok
      exact Except.noConfusion hok
    | ok r1 =>
      simp only [hs] at hok
      obtain ⟨h1m, h1u, _, h1s⟩ :=
        scanned_spec out_f fn n e hfn1 hfn2 b cc (svf k) hbm hbu r1 hs
      cases hl : scan_loop out_f fn svf k r1.1 r1.2.1 with
      | error err =>
        simp only [hl] at hok
        exact Except.noConfusion hok
      | ok rr =>
        simp only [hl, Except.ok.injEq] at hok
        subst hok
        obtain ⟨h2m, h2u, h2s⟩ := ih r1.1 r1.2.1 h1m h1u rr hl
        refine ⟨h2m, h2u, ?_⟩
        intro gs hgs
        rcases List.mem_cons.mp hgs with h | h
        · exact h ▸ h1s
        · exact h2s gs h

/-- C8: in the scan lift, for a payload that always leaves the untouched
broadcast collection as its immutable pre-loop snapshot among its output
variables: any broadcast collection missing from an iteration's broadcast
output group is re-inserted into it with its input value, while the entries
already produced are kept, so the iteration's output shape matches its
input shape; within each iteration the untouched collection is absent from
the carry output group and from every scanned output group passed to the
pure scan primitive, appearing only as the re-inserted snapshot of the
broadcast slot; and after the loop the immutable snapshot is deleted from
the collected broadcast output, leaving its outer value unchanged, with the
per-iteration scanned outputs all free of it. -/
theorem scan_broadcast_passthrough {C : Type} (out_f : List CFilter)
    (fn : Vars → C → Vars × C) (n : String) (e : List (String × Nat))
    (hfn1 : ∀ vs c0, (n, Col.frozenCol e) ∈ (fn vs c0).1)
    (hfn2 : ∀ vs c0, ((fn vs c0).1.map Prod.fst).Nodup) :
    (∀ (in_g out_g : Vars) (p : String × Col), p ∈ in_g →
      (∀ q ∈ out_g, ¬ (q.1 = p.1)) → (∀ q ∈ in_g, q.1 = p.1 → q = p) →
      p ∈ reinsert_broadcast in_g out_g ∧
      ∀ q ∈ out_g, q ∈ reinsert_broadcast in_g out_g) ∧
    (∀ b cc sv r, (n, Col.frozenCol e) ∈ b →
      (∀ q ∈ b, q.1 = n → q = (n, Col.frozenCol e)) →
      scanned out_f fn b cc sv = .ok r →
      (n, Col.frozenCol e) ∈ r.1 ∧
      (∀ p ∈ r.2.1.1, ¬ (p.1 = n)) ∧
      (∀ g ∈ r.2.2, ∀ p ∈ g, ¬ (p.1 = n))) ∧
    (∀ svf len b cc r, (n, Col.frozenCol e) ∈ b →
      (∀ q ∈ b, q.1 = n → q = (n, Col.frozenCol e)) →
      scan_inner out_f fn svf len b cc = .ok r →
      (∀ p ∈ r.1, ¬ (p.1 = n)) ∧
      (∀ gs ∈ r.2.2, ∀ g ∈ gs, ∀ p ∈ g, ¬ (p.1 = n))) := by
  refine ⟨?_, ?_, ?_⟩
  · intro in_g out_g p hp hout huniq
    exact ⟨reinsert_adds_missing in_g out_g p hp hout huniq,
      fun q hq => reinsert_keeps in_g out_g q hq⟩
  · intro b cc sv r hbm hbu hok
    obtain ⟨h1, _, h3, h4⟩ :=
      scanned_spec out_f fn n e hfn1 hfn2 b cc sv hbm hbu r hok
    exact ⟨h1, h3, h4⟩
  · intro svf len b cc r hbm hbu hok
    simp only [scan_inner] at hok
    cases hl : scan_loop out_f fn svf len b cc with
    | error err =>
      simp only [hl] at hok
      exact Except.noConfusion hok
    | ok r0 =>
      simp only [hl, Except.ok.injEq] at hok
      obtain ⟨_, h2u, h2s⟩ :=
        scan_loop_spec out_f fn n e hfn1 hfn2 svf len b cc hbm hbu r0 hl
      subst hok
      constructor
      · intro p hp hpn
        rw [drop_frozen_broadcast, List.mem_filter] at hp
        obtain ⟨hp0, hmut⟩ := hp
        have := h2u p hp0 hpn
        rw [this] at hmut
        simp [Col.isFrozenDict] at hmut
      · exact h2s

theorem scan_broadcast_passthrough_witness :
    ("params", Col.frozenCol [("w", 1)]) ∈
      reinsert_broadcast [("params", Col.frozenCol [("w", 1)])] [] ∧
    (∀ p ∈ ([("counter", Col.mutCol [("i", 1)])] : Vars), ¬ (p.1 = "params")) ∧
    (∀ p ∈ ([] : Vars), ¬ (p.1 = "params")) := by
  have H := scan_broadcast_passthrough (C := Nat)
    [CFilter.matchNames ["params"], CFilter.matchNames ["counter"]]
    (fun _ c => ([("params", Col.frozenCol [("w", 1)]),
      ("counter", Col.mutCol [("i", 1)])], c + 1))
    "params" [("w", 1)]
    (fun _ _ => by
      show ("params", Col.frozenCol [("w", 1)]) ∈
        [("params", Col.frozenCol [("w", 1)]), ("counter", Col.mutCol [("i", 1)])]
      decide)
    (fun _ _ => by
      show (List.map Prod.fst [("params", Col.frozenCol [("w", 1)]),
        ("counter", Col.mutCol [("i", 1)])]).Nodup
      decide)
  refine ⟨?_, ?_, ?_⟩
  · exact (H.1 [("params", Col.frozenCol [("w", 1)])] []
      ("params", Col.frozenCol [("w", 1)]) (by decide) (by simp)
      (by decide)).1
  · exact (H.2.1 [("params", Col.frozenCol [("w", 1)])]
      ([("counter", Col.mutCol [("i", 0)])], 0) []
      ([("params", Col.frozenCol [("w", 1)])],
        ([("counter", Col.mutCol [("i", 1)])], 1), [])
      (by decide) (by decide) rfl).2.1
  · exact (H.2.2 (fun _ => []) 2 [("params", Col.frozenCol [("w", 1)])]
      ([("counter", Col.mutCol [("i", 0)])], 0)
      ([], ([("counter", Col.mutCol [("i", 1)])], 2), [[], []])
      (by decide) (by decide) rfl).1

end Flax
